import Mathlib

/-!
Verification development for the concurrent in-memory store of the
baileys-api repository (`src/store/memory-store.js`, class `ConcurrentStore`).

Modelling conventions:
* A JavaScript `Map` is an insertion-ordered association list
  `List (κ × α)`; `Map.set` replaces the value in place when the key is
  present and appends otherwise, `Map.delete` removes the entry, and
  iteration order is list order — exactly the guarantees of JS `Map`.
* A plain JavaScript object used as a record of transport-supplied fields
  is an insertion-ordered field list `List (String × JVal)`; spreads and
  `Object.assign` become left folds of field assignment.
* Chat records are merged *in place* by the code (`Object.assign(existing, …)`),
  so chat-object identity matters: chat objects live in an explicit `heap`
  addressed by `Nat` references, and the `chats` map (and its backup copy)
  store references, mirroring a JS `Map` of object references.  Messages,
  contacts and group metadata are never mutated in place by the code
  (every write stores a freshly spread object), so they are modelled by
  value.
* `Date.now()` is an explicit `now : Nat` argument; `jidNormalizedUser`
  (an external library call) is an abstract `norm : String → String`
  argument.  Event emission and file I/O do not change the in-memory
  mappings and are modelled separately (see the file and write-serializer
  models further below).
-/

namespace MemoryStore

/-- A JavaScript primitive value appearing as a field of a transport object. -/
inductive JVal where
  | num (n : Int)
  | str (s : String)
  | jbool (b : Bool)
  | jnull
deriving DecidableEq, Repr

/-- JS `Map.get` / object field read: first binding of the key, if any. -/
def mget {κ α : Type} [DecidableEq κ] : List (κ × α) → κ → Option α
  | [], _ => none
  | (k, v) :: t, a => if k = a then some v else mget t a

/-- JS `Map.set` / object field write: replace in place when present,
append otherwise. -/
def mset {κ α : Type} [DecidableEq κ] : List (κ × α) → κ → α → List (κ × α)
  | [], a, b => [(a, b)]
  | (k, v) :: t, a, b => if k = a then (a, b) :: t else (k, v) :: mset t a b

/-- JS `Map.has`. -/
def mhas {κ α : Type} [DecidableEq κ] (m : List (κ × α)) (a : κ) : Bool :=
  (mget m a).isSome

/-- JS `Map.delete`: remove the binding of the key. -/
def mdelete {κ α : Type} [DecidableEq κ] : List (κ × α) → κ → List (κ × α)
  | [], _ => []
  | (k, v) :: t, a => if k = a then t else (k, v) :: mdelete t a

/-- The keys of a map, in insertion order. -/
def mkeys {κ α : Type} (m : List (κ × α)) : List κ := m.map Prod.fst

section MapLemmas

variable {κ α : Type} [DecidableEq κ]

theorem mget_mset_self (m : List (κ × α)) (a : κ) (b : α) :
    mget (mset m a b) a = some b := by
  induction m with
  | nil => simp [mget, mset]
  | cons p t ih =>
    obtain ⟨k, v⟩ := p
    by_cases h : k = a <;> simp [mget, mset, h, ih]

theorem mget_mset_ne (m : List (κ × α)) (a a' : κ) (b : α) (h : a ≠ a') :
    mget (mset m a b) a' = mget m a' := by
  induction m with
  | nil => simp [mget, mset, h]
  | cons p t ih =>
    obtain ⟨k, v⟩ := p
    by_cases hk : k = a
    · subst hk; simp [mget, mset, h]
    · simp only [mset, if_neg hk, mget]
      by_cases hk' : k = a' <;> simp [hk', ih]

theorem mget_mdelete_ne (m : List (κ × α)) (a a' : κ) (h : a ≠ a') :
    mget (mdelete m a) a' = mget m a' := by
  induction m with
  | nil => simp [mdelete]
  | cons p t ih =>
    obtain ⟨k, v⟩ := p
    by_cases hk : k = a
    · subst hk; simp [mdelete, mget, h]
    · simp only [mdelete, if_neg hk, mget]
      by_cases hk' : k = a' <;> simp [hk', ih]

theorem mget_mem (m : List (κ × α)) (a : κ) (b : α) (h : mget m a = some b) :
    (a, b) ∈ m := by
  induction m with
  | nil => simp [mget] at h
  | cons p t ih =>
    obtain ⟨k, v⟩ := p
    by_cases hk : k = a
    · subst hk
      rw [mget, if_pos rfl] at h
      cases h
      exact List.mem_cons_self _ _
    · rw [mget, if_neg hk] at h
      exact List.mem_cons_of_mem _ (ih h)

theorem mkeys_mset_of_mem (m : List (κ × α)) (a : κ) (b : α)
    (h : mhas m a = true) : mkeys (mset m a b) = mkeys m := by
  induction m with
  | nil => simp [mhas, mget] at h
  | cons p t ih =>
    obtain ⟨k, v⟩ := p
    by_cases hk : k = a
    · subst hk; simp [mset, mkeys]
    · have h' : mhas t a = true := by simpa [mhas, mget, hk] using h
      simp only [mset, if_neg hk]
      show k :: mkeys (mset t a b) = k :: mkeys t
      rw [ih h']

theorem length_mset_of_mem (m : List (κ × α)) (a : κ) (b : α)
    (h : mhas m a = true) : (mset m a b).length = m.length := by
  have := mkeys_mset_of_mem m a b h
  have h1 : (mkeys (mset m a b)).length = (mkeys m).length := by rw [this]
  simpa [mkeys] using h1

theorem length_mset_of_not_mem (m : List (κ × α)) (a : κ) (b : α)
    (h : mhas m a = false) : (mset m a b).length = m.length + 1 := by
  induction m with
  | nil => simp [mset]
  | cons p t ih =>
    obtain ⟨k, v⟩ := p
    by_cases hk : k = a
    · subst hk; simp [mhas, mget] at h
    · simp only [mhas, mget, if_neg hk] at h
      simp [mset, if_neg hk, ih h]

theorem mem_mkeys_mset (m : List (κ × α)) (a : κ) (b : α) (x : κ) :
    x ∈ mkeys (mset m a b) ↔ x ∈ mkeys m ∨ x = a := by
  induction m with
  | nil => simp [mset, mkeys]
  | cons p t ih =>
    obtain ⟨k, v⟩ := p
    simp only [mkeys] at ih ⊢
    by_cases hk : k = a
    · subst hk
      simp [mset, List.mem_cons]
      tauto
    · simp [mset, hk, List.mem_cons, ih]
      tauto

theorem mkeys_nodup_mset (m : List (κ × α)) (a : κ) (b : α)
    (h : (mkeys m).Nodup) : (mkeys (mset m a b)).Nodup := by
  induction m with
  | nil => simp [mset, mkeys]
  | cons p t ih =>
    obtain ⟨k, v⟩ := p
    simp only [mkeys, List.map_cons, List.nodup_cons] at h
    by_cases hk : k = a
    · subst hk
      simpa [mset, mkeys] using h
    · have hn : (mkeys (mset t a b)).Nodup := ih h.2
      have hni : k ∉ mkeys (mset t a b) := by
        intro hmem
        rcases (mem_mkeys_mset t a b k).1 hmem with h1 | h1
        · exact h.1 h1
        · exact hk h1
      simp only [mset, if_neg hk, mkeys, List.map_cons, List.nodup_cons]
      exact ⟨hni, hn⟩

theorem mdelete_eq_filter (m : List (κ × α)) (a : κ)
    (h : (mkeys m).Nodup) :
    mdelete m a = m.filter (fun p => !decide (p.1 = a)) := by
  induction m with
  | nil => simp [mdelete]
  | cons p t ih =>
    obtain ⟨k, v⟩ := p
    simp only [mkeys, List.map_cons, List.nodup_cons] at h
    by_cases hk : k = a
    · subst hk
      have hall : t.filter (fun p => !decide (p.1 = k)) = t := by
        apply List.filter_eq_self.2
        intro p hp
        simp only [Bool.not_eq_true', decide_eq_false_iff_not]
        intro hpk
        exact h.1 (hpk ▸ List.mem_map_of_mem Prod.fst hp)
      simp [mdelete, List.filter_cons, hall]
    · simp only [mdelete, if_neg hk]
      rw [ih h.2]
      simp [List.filter_cons, hk]

theorem mem_mset_cases {m : List (κ × α)} {k : κ} {v : α} {p : κ × α} :
    p ∈ mset m k v → p ∈ m ∨ p = (k, v) := by
  induction m with
  | nil => intro h; simpa [mset] using h
  | cons q t ih =>
    intro h
    obtain ⟨kq, vq⟩ := q
    by_cases hk : kq = k
    · subst hk
      simp only [mset, if_pos] at h
      simp only [List.mem_cons] at h ⊢
      tauto
    · simp only [mset, if_neg hk, List.mem_cons] at h ⊢
      rcases h with h1 | h2
      · tauto
      · rcases ih h2 with h3 | h3
        · tauto
        · tauto

theorem mset_mset_same (m : List (κ × α)) (k : κ) (v w : α) :
    mset (mset m k v) k w = mset m k w := by
  induction m with
  | nil => simp [mset]
  | cons q t ih =>
    obtain ⟨kq, vq⟩ := q
    by_cases hk : kq = k
    · subst hk; simp [mset]
    · simp [mset, hk, ih]

theorem mset_self_of_mget (m : List (κ × α)) (k : κ) (v : α)
    (h : mget m k = some v) : mset m k v = m := by
  induction m with
  | nil => simp [mget] at h
  | cons q t ih =>
    obtain ⟨kq, vq⟩ := q
    by_cases hk : kq = k
    · subst hk
      rw [mget, if_pos rfl] at h
      cases h
      simp [mset]
    · rw [mget, if_neg hk] at h
      simp [mset, hk, ih h]

theorem mget_eq_none_of_not_mem (m : List (κ × α)) (k : κ)
    (h : k ∉ mkeys m) : mget m k = none := by
  induction m with
  | nil => simp [mget]
  | cons q t ih =>
    obtain ⟨kq, vq⟩ := q
    simp only [mkeys, List.map_cons, List.mem_cons] at h
    push_neg at h
    rw [mget, if_neg (Ne.symm h.1)]
    exact ih h.2

theorem length_mset_eq_length_mset (m : List (κ × α)) (k : κ) (v w : α) :
    (mset m k v).length = (mset m k w).length := by
  cases hk : mhas m k
  · rw [length_mset_of_not_mem m k v hk, length_mset_of_not_mem m k w hk]
  · rw [length_mset_of_mem m k v hk, length_mset_of_mem m k w hk]

omit [DecidableEq κ] in
theorem mkeys_nodup_filter (m : List (κ × α)) (p : κ × α → Bool)
    (h : (mkeys m).Nodup) : (mkeys (m.filter p)).Nodup := by
  have hs : List.Sublist ((m.filter p).map Prod.fst) (m.map Prod.fst) :=
    List.Sublist.map Prod.fst (List.filter_sublist m)
  exact List.Nodup.sublist hs h

theorem mhas_mset_of_mhas (m : List (κ × α)) (a k : κ) (b : α)
    (h : mhas m k = true) : mhas (mset m a b) k = true := by
  by_cases hk : a = k
  · subst hk; simp [mhas, mget_mset_self]
  · simpa [mhas, mget_mset_ne m a k b hk] using h

theorem mhas_ne_nil (m : List (κ × α)) (k : κ) (h : mhas m k = true) :
    m ≠ [] := by
  intro he
  subst he
  simp [mhas, mget] at h

theorem mset_ne_nil (m : List (κ × α)) (k : κ) (v : α) : mset m k v ≠ [] := by
  cases m with
  | nil => simp [mset]
  | cons q t =>
    obtain ⟨kq, vq⟩ := q
    by_cases hk : kq = k <;> simp [mset, hk]

theorem mhas_iff_mem_mkeys (m : List (κ × α)) (k : κ) :
    mhas m k = true ↔ k ∈ mkeys m := by
  induction m with
  | nil => simp [mhas, mget, mkeys]
  | cons q t ih =>
    obtain ⟨kq, vq⟩ := q
    by_cases hk : kq = k
    · subst hk; simp [mhas, mget, mkeys]
    · simp only [mhas, mget, if_neg hk, mkeys, List.map_cons, List.mem_cons]
      simp only [mhas, mkeys] at ih
      rw [ih]
      constructor
      · exact Or.inr
      · intro hh
        rcases hh with hh | hh
        · exact absurd hh.symm hk
        · exact hh

theorem mget_append_of_mhas (m l : List (κ × α)) (k : κ)
    (h : mhas m k = true) : mget (m ++ l) k = mget m k := by
  induction m with
  | nil => simp [mhas, mget] at h
  | cons q t ih =>
    obtain ⟨kq, vq⟩ := q
    by_cases hk : kq = k
    · subst hk; simp [mget]
    · simp only [mhas, mget, if_neg hk] at h
      simp only [List.cons_append, mget, if_neg hk]
      exact ih h

end MapLemmas

/-- The key of an incoming WA message: `msg.key.remoteJid` and `msg.key.id`. -/
structure MsgKey where
  remoteJid : String
  id : String
deriving DecidableEq, Repr

/-- An incoming transport message, with the fields the store reads:
`key`, `messageTimestamp` (absent modelled as `none`), the top-level
`fromMe` flag the code tests, the nested
`message.protocolMessage.historySyncNotification` presence flag, and an
opaque payload standing for all remaining fields. -/
structure WAMessage where
  key : MsgKey
  messageTimestamp : Option Int
  fromMe : Bool
  protocolHistorySync : Bool
  payload : String
deriving DecidableEq, Repr

/-- A stored message: `{ ...msg, timestamp: Date.now(), indexed: true }`. -/
structure StoredMessage extends WAMessage where
  timestamp : Nat
  indexed : Bool
deriving DecidableEq, Repr

/-- `{ ...message, timestamp: Date.now(), indexed: true }`. -/
def storeMsg (m : WAMessage) (now : Nat) : StoredMessage :=
  { m with timestamp := now, indexed := true }

/-- `m.messageTimestamp || 0` as used by the eviction comparator
(a missing timestamp is treated as 0; a present 0 also yields 0). -/
def tsOf (m : StoredMessage) : Int := m.messageTimestamp.getD 0

/-- One chat's message map: JS `Map<id, storedMessage>`. -/
abbrev ChatMsgs := List (String × StoredMessage)

/-- `Array.prototype.sort`'s stable insertion of one element: the element is
placed before the first list element it compares `le` to. -/
def ordInsert {α : Type} (le : α → α → Bool) (a : α) : List α → List α
  | [] => [a]
  | b :: l => if le a b then a :: b :: l else b :: ordInsert le a l

/-- A stable sort (insertion sort), modelling the stable
`Array.prototype.sort` required by the JS spec. -/
def insSort {α : Type} (le : α → α → Bool) : List α → List α
  | [] => []
  | a :: l => ordInsert le a (insSort le l)

/-- The eviction comparator `([, a], [, b]) => (a.messageTimestamp || 0) - (b.messageTimestamp || 0)`:
sort ascending by timestamp. -/
def leTs (a b : String × StoredMessage) : Bool := tsOf a.2 ≤ tsOf b.2

/-- The per-chat cap enforcement shared by `addMessage` (lines 679-685) and
`processChatMessages` (lines 513-519): if the chat map exceeds the cap,
sort its entries ascending by `messageTimestamp || 0` (stable) and delete
the oldest `size - cap` entries from the map. -/
def evictExcess (cap : Nat) (l : ChatMsgs) : ChatMsgs :=
  if l.length > cap then
    let sorted := insSort leTs l
    let toDelete := (sorted.take (l.length - cap)).map Prod.fst
    toDelete.foldl (fun m id => mdelete m id) l
  else l

section SortLemmas

variable {α : Type}

theorem ordInsert_perm (le : α → α → Bool) (a : α) (l : List α) :
    List.Perm (ordInsert le a l) (a :: l) := by
  induction l with
  | nil => simp [ordInsert]
  | cons b t ih =>
    by_cases h : le a b
    · simp [ordInsert, h]
    · simp only [ordInsert, if_neg h]
      exact List.Perm.trans (List.Perm.cons b ih) (List.Perm.swap a b t)

theorem insSort_perm (le : α → α → Bool) (l : List α) :
    List.Perm (insSort le l) l := by
  induction l with
  | nil => simp [insSort]
  | cons a t ih =>
    exact List.Perm.trans (ordInsert_perm le a (insSort le t)) (List.Perm.cons a ih)

/-- The strict "newer or later-inserted" lexicographic order on indexed
entries: earlier position ties are broken by index. `lexLe x y` holds when
`x` sorts no later than `y` by (timestamp, insertion index). -/
def lexLe (x y : Nat × (String × StoredMessage)) : Bool :=
  tsOf x.2.2 < tsOf y.2.2 || (tsOf x.2.2 = tsOf y.2.2 && x.1 ≤ y.1)

theorem mem_enumFrom_le {l : List α} {n : Nat} {x : Nat × α}
    (h : x ∈ List.enumFrom n l) : n ≤ x.1 := by
  induction l generalizing n with
  | nil => simp [List.enumFrom] at h
  | cons a t ih =>
    simp only [List.enumFrom, List.mem_cons] at h
    rcases h with h | h
    · subst h; exact Nat.le_refl n
    · exact Nat.le_of_succ_le (ih h)

/-- Stability: sorting the plain entries by timestamp with a stable sort is
the same as sorting index-tagged entries by the (timestamp, index)
lexicographic order and dropping the tags. -/
theorem insSort_stable (l : List (String × StoredMessage)) (n : Nat) :
    insSort leTs l = (insSort lexLe (List.enumFrom n l)).map Prod.snd := by
  induction l generalizing n with
  | nil => simp [insSort, List.enumFrom]
  | cons a t ih =>
    simp only [List.enumFrom, insSort]
    rw [ih (n + 1)]
    -- it remains to push `map Prod.snd` through the ordered insert
    have key : ∀ (m : List (Nat × (String × StoredMessage))),
        (∀ x ∈ m, n < x.1) →
        ordInsert leTs a (m.map Prod.snd) =
          (ordInsert lexLe (n, a) m).map Prod.snd := by
      intro m
      induction m with
      | nil => intro _; simp [ordInsert]
      | cons y ys ihm =>
        intro hlt
        have hy : n < y.1 := hlt y (List.mem_cons_self _ _)
        have hcond : leTs a y.2 = lexLe (n, a) y := by
          simp only [leTs, lexLe]
          rcases lt_trichotomy (tsOf a.2) (tsOf y.2.2) with h | h | h
          · simp [h, le_of_lt h]
          · simp [h, Nat.le_of_lt hy, le_of_eq h]
          · simp [h, not_le.2 h, not_lt.2 (le_of_lt h), Ne.symm (ne_of_lt h)]
        by_cases hc : leTs a y.2
        · simp [ordInsert, hc, hcond ▸ hc]
        · have hc' : lexLe (n, a) y = false := by rw [← hcond]; simpa using hc
          simp only [List.map_cons, ordInsert, hc, hc', Bool.false_eq_true,
            if_false, List.map_cons]
          rw [ihm (fun x hx => hlt x (List.mem_cons_of_mem _ hx))]
    rw [key]
    intro x hx
    have := mem_enumFrom_le ((insSort_perm lexLe _).mem_iff.1 hx)
    omega

end SortLemmas

/-- Spec-side definition, following the spec's words: the retained set is
"the cap entries with the greatest `messageTimestamp`, ties broken by
insertion order via stable sort" — i.e. sort the index-tagged entries
ascending by (timestamp, insertion index) and keep everything past the
oldest `size - cap` entries. -/
def specMostRecent (cap : Nat) (l : ChatMsgs) : ChatMsgs :=
  ((insSort lexLe l.enum).drop (l.length - cap)).map Prod.snd

theorem foldl_mdelete_eq_filter (l : ChatMsgs) (ks : List String)
    (h : (mkeys l).Nodup) :
    ks.foldl (fun m id => mdelete m id) l
      = l.filter (fun p => !decide (p.1 ∈ ks)) := by
  induction ks generalizing l with
  | nil => simp
  | cons k ks ih =>
    simp only [List.foldl_cons]
    have hdel := mdelete_eq_filter l k h
    have hn : (mkeys (mdelete l k)).Nodup := by
      rw [hdel]; exact mkeys_nodup_filter l _ h
    rw [ih (mdelete l k) hn, hdel, List.filter_filter]
    apply List.filter_congr
    intro p _
    rcases Decidable.em (p.1 = k) with h1 | h1 <;>
      rcases Decidable.em (p.1 ∈ ks) with h2 | h2 <;>
        simp [h1, h2]

/-- Retained-set characterization of the cap enforcement: for a chat map
with distinct keys, the entries kept by `evictExcess` are exactly (a
permutation of) the `min cap size` greatest entries in the (timestamp,
insertion order) lexicographic order. -/
theorem evictExcess_spec (cap : Nat) (l : ChatMsgs)
    (h : (mkeys l).Nodup) :
    List.Perm (evictExcess cap l) (specMostRecent cap l) := by
  have henum : l.enum = List.enumFrom 0 l := rfl
  by_cases hlen : l.length > cap
  · -- eviction path
    have hstab : insSort leTs l = (insSort lexLe (List.enumFrom 0 l)).map Prod.snd :=
      insSort_stable l 0
    set S := insSort lexLe (List.enumFrom 0 l) with hS
    set k := l.length - cap with hk
    set TT := (S.take k).map Prod.snd with hTT
    set DD := (S.drop k).map Prod.snd with hDD
    have hsplit : (insSort leTs l) = TT ++ DD := by
      rw [hstab, hTT, hDD, ← List.map_append, List.take_append_drop]
    have hperm : List.Perm l (TT ++ DD) := by
      rw [← hsplit]; exact (insSort_perm leTs l).symm
    have hkeysnodup : ((TT ++ DD).map Prod.fst).Nodup :=
      ((hperm.map Prod.fst).nodup_iff).1 h
    rw [List.map_append] at hkeysnodup
    have hdisj : ∀ x ∈ DD, x.1 ∉ TT.map Prod.fst := by
      intro x hx hmem
      rcases (List.nodup_append.1 hkeysnodup) with ⟨_, _, hdis⟩
      exact hdis hmem (List.mem_map_of_mem Prod.fst hx)
    have hdelkeys : ((insSort leTs l).take k).map Prod.fst = TT.map Prod.fst := by
      rw [hstab, hTT]
      simp only [List.map_take, List.map_map]
    have hfold : evictExcess cap l
        = l.filter (fun p => !decide (p.1 ∈ TT.map Prod.fst)) := by
      simp only [evictExcess, if_pos hlen]
      rw [hdelkeys]
      exact foldl_mdelete_eq_filter l _ h
    have hfiltT : TT.filter (fun p => !decide (p.1 ∈ TT.map Prod.fst)) = [] := by
      apply List.filter_eq_nil_iff.2
      intro x hx
      simp [List.mem_map_of_mem Prod.fst hx]
    have hfiltD : DD.filter (fun p => !decide (p.1 ∈ TT.map Prod.fst)) = DD := by
      apply List.filter_eq_self.2
      intro x hx
      simp [hdisj x hx]
    have : List.Perm (l.filter (fun p => !decide (p.1 ∈ TT.map Prod.fst)))
        (TT.filter (fun p => !decide (p.1 ∈ TT.map Prod.fst))
          ++ DD.filter (fun p => !decide (p.1 ∈ TT.map Prod.fst))) := by
      rw [← List.filter_append]
      exact hperm.filter _
    rw [hfold]
    rw [hfiltT, hfiltD] at this
    simpa [specMostRecent, henum, ← hS, ← hk, ← hDD] using this
  · -- no eviction: everything is retained, and the spec keeps everything too
    have h0 : l.length - cap = 0 := Nat.sub_eq_zero_of_le (Nat.le_of_not_lt hlen)
    simp only [evictExcess, if_neg hlen, specMostRecent, h0, List.drop_zero, henum]
    rw [← insSort_stable l 0]
    exact (insSort_perm leTs l).symm

/-- After cap enforcement a chat never holds more than `cap` messages. -/
theorem evictExcess_length_le (cap : Nat) (l : ChatMsgs)
    (h : (mkeys l).Nodup) : (evictExcess cap l).length ≤ cap := by
  have hperm := evictExcess_spec cap l h
  rw [hperm.length_eq]
  simp only [specMostRecent, List.length_map, List.length_drop]
  have : (insSort lexLe l.enum).length = l.length := by
    rw [(insSort_perm lexLe _).length_eq, List.enum_length]
  omega

/-- Keys stay distinct through cap enforcement. -/
theorem evictExcess_nodup (cap : Nat) (l : ChatMsgs)
    (h : (mkeys l).Nodup) : (mkeys (evictExcess cap l)).Nodup := by
  by_cases hlen : l.length > cap
  · simp only [evictExcess, if_pos hlen]
    rw [foldl_mdelete_eq_filter l _ h]
    exact mkeys_nodup_filter l _ h
  · simpa [evictExcess, if_neg hlen] using h

/-- A JS object of transport-supplied fields, as an insertion-ordered
field list (chats, contacts and group-metadata records). -/
abbrev JsObj := List (String × JVal)

/-- `obj.id` where the id field is expected to be a string. -/
def objId (c : JsObj) : String :=
  match mget c "id" with
  | some (JVal.str s) => s
  | _ => ""

/-- `Object.assign(target, src)` / `{ ...target, ...src }`: assign each of
`src`'s fields onto `target` in order (existing fields keep their slot,
new fields are appended — JS object field-order semantics). -/
def objAssign (target src : JsObj) : JsObj :=
  src.foldl (fun o kv => mset o kv.1 kv.2) target

/-- `x || 0` on a possibly-absent numeric field (`existing.unreadCount || 0`):
an absent field and a present 0 both give 0, any other number gives itself. -/
def jsNumOr0 (v : Option JVal) : Int :=
  match v with
  | some (JVal.num n) => n
  | _ => 0

/-- `update.unreadCount > 0` on a possibly-absent numeric field
(`undefined > 0` is false in JS). -/
def jsPos (v : Option JVal) : Bool :=
  match v with
  | some (JVal.num n) => decide (0 < n)
  | _ => false

/-- The in-memory state of `ConcurrentStore`.  Chat objects are merged in
place by the code, so they live in an explicit `heap` addressed by `Nat`
references and `chats`/`backupChats` map jids to references (a JS `Map` of
object references).  Messages, contacts and group metadata are only ever
replaced wholesale, never mutated in place, so they are held by value.
File-system state, timers and the write serializer are modelled separately. -/
structure Store where
  heap : List (Nat × JsObj)
  nextRef : Nat
  chats : List (String × Nat)
  messages : List (String × ChatMsgs)
  contacts : List (String × JsObj)
  groupMetadata : List (String × JsObj)
  backupChats : List (String × Nat)
  backupMessages : List (String × ChatMsgs)
  backupContacts : List (String × JsObj)
  backupGroupMetadata : List (String × JsObj)
  isProcessingHistory : Bool
  syncStartTime : Option Nat
  hasInitialData : Bool
  statsTotalMessages : Nat
  statsTotalChats : Nat
  statsTotalContacts : Nat
  statsOperations : Nat
  maxMessagesPerChat : Nat
  preserveDataDuringSync : Bool
  incrementalSave : Bool
deriving DecidableEq, Repr

/-- Dereference a chat object (a dangling reference reads as `{}`;
all reachable states only store live references). -/
def heapGet (s : Store) (r : Nat) : JsObj := (mget s.heap r).getD []

/-- The observable chats mapping: jid ↦ the chat object's field values. -/
def chatsView (s : Store) : List (String × JsObj) :=
  s.chats.map (fun p => (p.1, heapGet s p.2))

/-- `hasValidData()`: `chats.size > 0 || messages.size > 0 || contacts.size > 0`. -/
def hasValidData (s : Store) : Bool :=
  !s.chats.isEmpty || !s.messages.isEmpty || !s.contacts.isEmpty

/-- `hasBackupData()` (lines 138-142): checks the chats, messages and
contacts backups — and only those three. -/
def hasBackupData (s : Store) : Bool :=
  !s.backupChats.isEmpty || !s.backupMessages.isEmpty || !s.backupContacts.isEmpty

/-- `addMessage(jid, message)` (lines 658-693): skip protocol
history-sync notifications, normalize the jid, store the spread message
under `message.key.id`, enforce the per-chat cap, and bump
`stats.totalMessages` / `stats.operations` (unconditionally). -/
def addMessage (norm : String → String) (now : Nat) (s : Store)
    (jid : String) (m : WAMessage) : Store :=
  if m.fromMe && m.protocolHistorySync then s
  else
    let nj := norm jid
    let inner := (mget s.messages nj).getD []
    let inner1 := mset inner m.key.id (storeMsg m now)
    let inner2 := evictExcess s.maxMessagesPerChat inner1
    { s with messages := mset s.messages nj inner2,
             statsTotalMessages := s.statsTotalMessages + 1,
             statsOperations := s.statsOperations + 1 }

/-- Loop body of `processChatMessages` (lines 501-510): add the message
only when its id is absent, counting additions. -/
def pcmStep (now : Nat) (acc : ChatMsgs × Nat) (m : WAMessage) : ChatMsgs × Nat :=
  if mhas acc.1 m.key.id then acc
  else (mset acc.1 m.key.id (storeMsg m now), acc.2 + 1)

/-- `processChatMessages(jid, chatMessages)` (lines 493-522): add only the
messages whose id is not yet present (counting them), then enforce the
per-chat cap once.  Returns the updated store and the `added` count. -/
def processChatMessages (now : Nat) (s : Store)
    (jid : String) (ms : List WAMessage) : Store × Nat :=
  let inner := (mget s.messages jid).getD []
  let res := ms.foldl (pcmStep now) (inner, 0)
  let inner2 := evictExcess s.maxMessagesPerChat res.1
  ({ s with messages := mset s.messages jid inner2 }, res.2)

/-- One step of the `processMessagesOptimized` grouping loop (lines 470-480):
push the message onto its normalized jid's bucket. -/
def gbjStep (norm : String → String)
    (acc : List (String × List WAMessage)) (m : WAMessage) :
    List (String × List WAMessage) :=
  let j := norm m.key.remoteJid
  match mget acc j with
  | some g => mset acc j (g ++ [m])
  | none => acc ++ [(j, [m])]

/-- `processMessagesOptimized` grouping step: bucket messages by normalized
`key.remoteJid`, first-seen order (a JS `Map` of arrays). -/
def groupByJid (norm : String → String) (ms : List WAMessage) :
    List (String × List WAMessage) :=
  ms.foldl (gbjStep norm) []

/-- One per-chat step of `processMessagesOptimized` (lines 483-486). -/
def pmoStep (now : Nat) (st : Store) (g : String × List WAMessage) : Store :=
  (processChatMessages now st g.1 g.2).1

/-- `processMessagesOptimized(newMessages)` (lines 465-491): group by chat,
then run `processChatMessages` per chat in first-seen order. -/
def processMessagesOptimized (norm : String → String) (now : Nat)
    (s : Store) (ms : List WAMessage) : Store :=
  (groupByJid norm ms).foldl (pmoStep now) s

/-- Loop body of `processChatsOptimized` (lines 415-423): add the chat only
when its id is absent, as a fresh `{ ...chat, syncedAt: Date.now() }`. -/
def pcoStep (now : Nat) (st : Store) (c : JsObj) : Store :=
  if mhas st.chats (objId c) then st
  else
    { st with heap := mset st.heap st.nextRef (mset c "syncedAt" (JVal.num now)),
              nextRef := st.nextRef + 1,
              chats := mset st.chats (objId c) st.nextRef }

/-- `processChatsOptimized(newChats)` (lines 408-433): add each chat that is
not already present as a fresh `{ ...chat, syncedAt: Date.now() }` object;
chats already present are left untouched. -/
def processChatsOptimized (now : Nat) (s : Store) (cs : List JsObj) : Store :=
  cs.foldl (pcoStep now) s

/-- Loop body of `processContactsOptimized` (lines 442-449). -/
def pctStep (norm : String → String) (now : Nat) (st : Store) (c : JsObj) : Store :=
  let v := mset c "lastUpdated" (JVal.num now)
  { st with contacts := mset st.contacts (norm (objId c)) v }

/-- `processContactsOptimized(newContacts)` (lines 435-463): store each
contact as a fresh `{ ...contact, lastUpdated: Date.now() }` under its
normalized id (replacing, not merging, any previous value). -/
def processContactsOptimized (norm : String → String) (now : Nat)
    (s : Store) (cs : List JsObj) : Store :=
  cs.foldl (pctStep norm now) s

/-- Loop body of `processContactsUpsert` (lines 637-652). -/
def pcuStep (norm : String → String) (now : Nat) (st : Store) (c : JsObj) : Store :=
  let j := norm (objId c)
  let ex := (mget st.contacts j).getD []
  let v := mset (objAssign ex c) "lastUpdated" (JVal.num now)
  { st with contacts := mset st.contacts j v }

/-- `processContactsUpsert(newContacts)` (lines 634-655): merge each contact
over the existing value: `{ ...(existing || {}), ...contact, lastUpdated }`. -/
def processContactsUpsert (norm : String → String) (now : Nat)
    (s : Store) (cs : List JsObj) : Store :=
  cs.foldl (pcuStep norm now) s

/-- `upsertChat(chat)` (lines 711-731): merge in place over the existing
chat object, or create `{ ...chat, createdAt, lastUpdated }` and count it. -/
def upsertChat (now : Nat) (s : Store) (c : JsObj) : Store :=
  match mget s.chats (objId c) with
  | some r =>
      let ex := heapGet s r
      { s with heap := mset s.heap r (objAssign ex (mset c "lastUpdated" (JVal.num now))) }
  | none =>
      let newObj := mset (mset c "createdAt" (JVal.num now)) "lastUpdated" (JVal.num now)
      { s with heap := mset s.heap s.nextRef newObj,
               nextRef := s.nextRef + 1,
               chats := mset s.chats (objId c) s.nextRef,
               statsTotalChats := s.statsTotalChats + 1 }

/-- `updateChat(update)` (lines 616-631): only for an existing chat; a
positive `update.unreadCount` is first replaced by the sum with the
existing value, then the update is `Object.assign`ed in place together
with a fresh `lastUpdated`. -/
def updateChat (now : Nat) (s : Store) (u : JsObj) : Store :=
  match mget s.chats (objId u) with
  | none => s
  | some r =>
      let ex := heapGet s r
      let u' := if jsPos (mget u "unreadCount")
                then mset u "unreadCount"
                  (JVal.num (jsNumOr0 (mget ex "unreadCount") + jsNumOr0 (mget u "unreadCount")))
                else u
      { s with heap := mset s.heap r (objAssign ex (mset u' "lastUpdated" (JVal.num now))) }

/-- `updateGroupMetadata(update)` (lines 845-857): replace by the merged
`{ ...(existing || {}), ...update, lastUpdated }` object. -/
def updateGroupMetadata (now : Nat) (s : Store) (u : JsObj) : Store :=
  let ex := (mget s.groupMetadata (objId u)).getD []
  let v := mset (objAssign ex u) "lastUpdated" (JVal.num now)
  { s with groupMetadata := mset s.groupMetadata (objId u) v }

/-- `updateStats()` (lines 733-738): recompute totals from the live maps. -/
def updateStats (s : Store) : Store :=
  { s with statsTotalChats := s.chats.length,
           statsTotalContacts := s.contacts.length,
           statsTotalMessages := (s.messages.map (fun p => p.2.length)).sum }

/-- `createBackup()` (lines 85-111), in-memory effect: shallow-copy the
chats / contacts / group-metadata maps and deep-copy the per-chat message
maps into the backup slots.  (The optional `.backup` file write touches no
in-memory mapping; note the chats copy shares the chat *objects* — only
the reference map is copied.)  No-op unless `preserveDataDuringSync`. -/
def createBackup (s : Store) : Store :=
  if s.preserveDataDuringSync then
    { s with backupChats := s.chats,
             backupMessages := s.messages,
             backupContacts := s.contacts,
             backupGroupMetadata := s.groupMetadata }
  else s

/-- `restoreFromBackup()` (lines 114-136): replace the live maps by copies
of the backup maps and recompute stats; no-op unless
`preserveDataDuringSync` and `hasBackupData()`. -/
def restoreFromBackup (s : Store) : Store :=
  if s.preserveDataDuringSync && hasBackupData s then
    updateStats { s with chats := s.backupChats,
                         contacts := s.backupContacts,
                         groupMetadata := s.backupGroupMetadata,
                         messages := s.backupMessages }
  else s

/-- `clearBackup()` (lines 268-273). -/
def clearBackup (s : Store) : Store :=
  { s with backupChats := [], backupMessages := [],
           backupContacts := [], backupGroupMetadata := [] }

/-- `finalizeSyncProcess()` (lines 241-266), in-memory effect: if there is
no valid data but a backup exists, restore it (the snapshot writes change
no in-memory mapping); then clear the backup and leave the Syncing state. -/
def finalizeSyncProcess (s : Store) : Store :=
  let s1 := if hasValidData s then s
            else if hasBackupData s then restoreFromBackup s else s
  clearBackup { s1 with isProcessingHistory := false, syncStartTime := none }

/-- One bulk history batch, as destructured by `processHistorySet`. -/
structure HistoryData where
  chats : List JsObj
  contacts : List JsObj
  messages : List WAMessage
  isLatest : Bool
  syncType : Nat
  progress : Nat
deriving DecidableEq, Repr

/-- `processHistorySet(historyData)` (lines 145-238), in-memory effect:
ignore on-demand batches (`syncType === 6`); on the first batch of a sync
mark Syncing, record the start time and back up existing data; clear the
chat and message maps only for a "latest" batch with more than 10 chats or
more than 100 messages; merge chats, contacts and grouped messages; update
stats; and finalize when the batch is latest or progress ≥ 100.  (Error
paths and the incremental snapshot write change no in-memory mapping.)
The sync-start marking (lines 161-171) is `historyStartPhase`. -/
def historyStartPhase (now : Nat) (s : Store) : Store :=
  if !s.isProcessingHistory then
    let sA := { s with isProcessingHistory := true,
                       syncStartTime := some now,
                       hasInitialData := hasValidData s }
    if hasValidData s then createBackup sA else sA
  else s

/-- The base state the merge starts from (lines 176-183): the chat and
message maps are cleared only for a "latest" batch with more than 10 chats
or more than 100 messages. -/
def mergeBase (s : Store) (h : HistoryData) : Store :=
  if h.isLatest && (decide (h.chats.length > 10) || decide (h.messages.length > 100))
  then { s with chats := [], messages := [] }
  else s

/-- The merge phase of `processHistorySet` (lines 176-203): clear the chat
and message maps only for a "latest" batch with more than 10 chats or more
than 100 messages, then merge chats, contacts and grouped messages and
recompute the stats. -/
def historyMergePhase (norm : String → String) (now : Nat)
    (s : Store) (h : HistoryData) : Store :=
  let s2 := mergeBase s h
  let s3 := if h.chats.length > 0 then processChatsOptimized now s2 h.chats else s2
  let s4 := if h.contacts.length > 0 then processContactsOptimized norm now s3 h.contacts else s3
  let s5 := if h.messages.length > 0 then processMessagesOptimized norm now s4 h.messages else s4
  updateStats s5

def processHistorySet (norm : String → String) (now : Nat)
    (s : Store) (h : HistoryData) : Store :=
  if h.syncType = 6 then s
  else
    let s6 := historyMergePhase norm now (historyStartPhase now s) h
    if h.isLatest || h.progress ≥ 100 then finalizeSyncProcess s6 else s6

/-- `processBatch(batch, type)` (lines 695-709): the per-message async tasks
all run `addMessage` synchronously first (no suspension before it), then
each task's continuation runs the `'notify'` chat-synthesis check, in batch
order (microtask resumption order). -/
def processBatch (norm : String → String) (now : Nat) (s : Store)
    (batch : List WAMessage) (type : String) : Store :=
  let sA := batch.foldl (fun st m => addMessage norm now st m.key.remoteJid m) s
  batch.foldl (fun st m =>
    let jid := norm m.key.remoteJid
    if type = "notify" && !mhas st.chats jid then
      upsertChat now st
        [("id", JVal.str jid),
         ("conversationTimestamp", JVal.num (m.messageTimestamp.getD 0)),
         ("unreadCount", JVal.num 1)]
    else st) sA

/-- The external events routed by `bind(ev)` (lines 525-613). -/
inductive StoreEvent where
  | messagesUpsert (msgs : List WAMessage) (type : String)
  | messagingHistorySet (h : HistoryData)
  | chatsUpsert (cs : List JsObj)
  | chatsUpdate (us : List JsObj)
  | chatsSet (cs : List JsObj)
  | chatsDelete (ids : List String)
  | contactsUpsert (cs : List JsObj)
  | groupsUpdate (us : List JsObj)
deriving DecidableEq, Repr

/-- The event dispatch installed by `bind(ev)` (lines 525-613): each named
event is routed to the corresponding store mutation; `messages.upsert` is
dropped while a history sync is processing a batch of more than 100
messages, and `chats.upsert` is dropped entirely while a history sync is
in progress. -/
def handleEvent (norm : String → String) (now : Nat)
    (s : Store) (e : StoreEvent) : Store :=
  match e with
  | StoreEvent.messagesUpsert msgs type =>
      if s.isProcessingHistory && decide (msgs.length > 100) then s
      else processBatch norm now s msgs type
  | StoreEvent.messagingHistorySet h => processHistorySet norm now s h
  | StoreEvent.chatsUpsert cs =>
      if s.isProcessingHistory then s
      else cs.foldl (fun st c => upsertChat now st c) s
  | StoreEvent.chatsUpdate us => us.foldl (fun st u => updateChat now st u) s
  | StoreEvent.chatsSet cs => cs.foldl (fun st c => upsertChat now st c) s
  | StoreEvent.chatsDelete ids =>
      updateStats (ids.foldl (fun st i =>
        { st with chats := mdelete st.chats i, messages := mdelete st.messages i }) s)
  | StoreEvent.contactsUpsert cs => processContactsUpsert norm now s cs
  | StoreEvent.groupsUpdate us => us.foldl (fun st u => updateGroupMetadata now st u) s

/-- A fresh store with the given `maxMessagesPerChat` and default options. -/
def initStore (cap : Nat) : Store :=
  { heap := [], nextRef := 0, chats := [], messages := [], contacts := [],
    groupMetadata := [], backupChats := [], backupMessages := [],
    backupContacts := [], backupGroupMetadata := [],
    isProcessingHistory := false, syncStartTime := none, hasInitialData := false,
    statsTotalMessages := 0, statsTotalChats := 0, statsTotalContacts := 0,
    statsOperations := 0, maxMessagesPerChat := cap,
    preserveDataDuringSync := true, incrementalSave := true }

/-- A single message-insertion operation: a live `addMessage` call or a
history-batch `processChatMessages` call. -/
inductive IngestOp where
  | add (jid : String) (m : WAMessage) (now : Nat)
  | hist (jid : String) (ms : List WAMessage) (now : Nat)
deriving DecidableEq, Repr

/-- Apply a sequence of message insertions to the store. -/
def applyIngest (norm : String → String) : Store → List IngestOp → Store
  | s, [] => s
  | s, IngestOp.add jid m now :: rest =>
      applyIngest norm (addMessage norm now s jid m) rest
  | s, IngestOp.hist jid ms now :: rest =>
      applyIngest norm (processChatMessages now s jid ms).1 rest

/-- The per-chat message bound: the configured cap is `cap`, every chat's
message map has at most `cap` entries and duplicate-free keys. -/
def MsgInvariant (cap : Nat) (s : Store) : Prop :=
  s.maxMessagesPerChat = cap ∧
  ∀ p ∈ s.messages, p.2.length ≤ cap ∧ (mkeys p.2).Nodup

theorem pcm_fold_nodup (now : Nat) (ms : List WAMessage) (acc : ChatMsgs × Nat)
    (h : (mkeys acc.1).Nodup) :
    (mkeys ((ms.foldl (pcmStep now) acc).1)).Nodup := by
  induction ms generalizing acc with
  | nil => simpa using h
  | cons m t ih =>
    simp only [List.foldl_cons]
    apply ih
    unfold pcmStep
    by_cases hc : mhas acc.1 m.key.id
    · simpa [hc] using h
    · simp only [hc, Bool.false_eq_true, if_false]
      exact mkeys_nodup_mset _ _ _ h

theorem msgInvariant_inner (cap : Nat) (s : Store) (j : String)
    (h : MsgInvariant cap s) : (mkeys ((mget s.messages j).getD [])).Nodup := by
  cases hg : mget s.messages j with
  | none => simp [mkeys]
  | some l =>
    simpa using (h.2 (j, l) (mget_mem _ _ _ hg)).2

theorem msgInvariant_addMessage (cap : Nat) (norm : String → String) (now : Nat)
    (s : Store) (jid : String) (m : WAMessage) (h : MsgInvariant cap s) :
    MsgInvariant cap (addMessage norm now s jid m) := by
  unfold addMessage
  by_cases hskip : m.fromMe && m.protocolHistorySync
  · simpa [hskip] using h
  · simp only [hskip, Bool.false_eq_true, if_false]
    obtain ⟨hcap, hmem⟩ := h
    refine ⟨hcap, ?_⟩
    intro p hp
    rcases mem_mset_cases hp with hold | hnew
    · exact hmem p hold
    · have hnodup1 :
          (mkeys (mset ((mget s.messages (norm jid)).getD [])
            m.key.id (storeMsg m now))).Nodup :=
        mkeys_nodup_mset _ _ _ (msgInvariant_inner cap s (norm jid) ⟨hcap, hmem⟩)
      subst hnew
      exact ⟨hcap ▸ evictExcess_length_le _ _ hnodup1, evictExcess_nodup _ _ hnodup1⟩

theorem msgInvariant_processChatMessages (cap : Nat) (now : Nat)
    (s : Store) (jid : String) (ms : List WAMessage) (h : MsgInvariant cap s) :
    MsgInvariant cap (processChatMessages now s jid ms).1 := by
  unfold processChatMessages
  obtain ⟨hcap, hmem⟩ := h
  refine ⟨hcap, ?_⟩
  intro p hp
  rcases mem_mset_cases hp with hold | hnew
  · exact hmem p hold
  · have hnodup1 :
        (mkeys ((ms.foldl (pcmStep now) ((mget s.messages jid).getD [], 0)).1)).Nodup :=
      pcm_fold_nodup now ms _ (msgInvariant_inner cap s jid ⟨hcap, hmem⟩)
    subst hnew
    exact ⟨hcap ▸ evictExcess_length_le _ _ hnodup1, evictExcess_nodup _ _ hnodup1⟩

theorem msgInvariant_applyIngest (cap : Nat) (norm : String → String) :
    ∀ (ops : List IngestOp) (s : Store), MsgInvariant cap s →
      MsgInvariant cap (applyIngest norm s ops)
  | [], _, h => h
  | IngestOp.add jid m now :: rest, s, h =>
      msgInvariant_applyIngest cap norm rest _
        (msgInvariant_addMessage cap norm now s jid m h)
  | IngestOp.hist jid ms now :: rest, s, h =>
      msgInvariant_applyIngest cap norm rest _
        (msgInvariant_processChatMessages cap now s jid ms h)

/-- A concrete scenario message for chat "A". -/
def scenarioMsg (i : Nat) (ts : Int) : WAMessage :=
  { key := { remoteJid := "A", id := "m" ++ toString i },
    messageTimestamp := some ts, fromMe := false,
    protocolHistorySync := false, payload := "" }

/-- Scenario 1 of the spec: cap 3, insert timestamps [1, 2, 3, 4]. -/
def scenarioC1 : List IngestOp :=
  [IngestOp.add "A" (scenarioMsg 1 1) 100,
   IngestOp.add "A" (scenarioMsg 2 2) 101,
   IngestOp.add "A" (scenarioMsg 3 3) 102,
   IngestOp.add "A" (scenarioMsg 4 4) 103]

/-- C1: for every chat and every sequence of insertions via `addMessage` or
`processChatMessages`, after each insertion the chat's retained message
count never exceeds the configured cap `maxMessagesPerChat`, and the
retained set is exactly the cap entries greatest by `messageTimestamp`
(missing timestamps read as 0, ties broken by insertion order via the
stable sort); with cap 3 and timestamps [1,2,3,4] into one chat, exactly
the messages with timestamps 2, 3, 4 remain. -/
theorem eviction_cap_invariant
    (cap : Nat) (norm : String → String) (s : Store) (hinv : MsgInvariant cap s) :
    (∀ ops : List IngestOp, MsgInvariant cap (applyIngest norm s ops))
    ∧ (∀ l : ChatMsgs, (mkeys l).Nodup →
        List.Perm (evictExcess cap l) (specMostRecent cap l))
    ∧ ((mget (applyIngest (fun j => j) (initStore 3) scenarioC1).messages "A").map
        (fun l => l.map (fun kv => (kv.1, tsOf kv.2)))
        = some [("m2", 2), ("m3", 3), ("m4", 4)]) := by
  refine ⟨fun ops => msgInvariant_applyIngest cap norm ops s hinv,
    fun l hl => evictExcess_spec cap l hl, ?_⟩
  decide

/-- Witness for `eviction_cap_invariant` at a concrete store. -/
theorem eviction_cap_invariant_check :
    MsgInvariant 3 (initStore 3)
    ∧ ((∀ ops : List IngestOp, MsgInvariant 3 (applyIngest (fun j => j) (initStore 3) ops))
      ∧ (∀ l : ChatMsgs, (mkeys l).Nodup →
          List.Perm (evictExcess 3 l) (specMostRecent 3 l))
      ∧ ((mget (applyIngest (fun j => j) (initStore 3) scenarioC1).messages "A").map
          (fun l => l.map (fun kv => (kv.1, tsOf kv.2)))
          = some [("m2", 2), ("m3", 3), ("m4", 4)])) :=
  ⟨⟨rfl, fun p hp => by simp [initStore] at hp⟩,
   eviction_cap_invariant 3 (fun j => j) (initStore 3)
     ⟨rfl, fun p hp => by simp [initStore] at hp⟩⟩

/-- A concrete message for the double-ingestion experiments. -/
def c2msg : WAMessage :=
  { key := { remoteJid := "A", id := "x1" }, messageTimestamp := some 5,
    fromMe := false, protocolHistorySync := false, payload := "hello" }

/-- C2 counterexample: ingesting the same message twice through `addMessage`
leaves one entry but `stats.totalMessages` is bumped on both calls
(lines 687), so its value after the second ingestion is 2, not the claimed
value-after-the-first of 1. -/
theorem addMessage_double_ingest_counterexample :
    (mget (addMessage (fun j => j) 11
        (addMessage (fun j => j) 10 (initStore 5000) "A" c2msg) "A" c2msg).messages
        "A").map List.length = some 1
    ∧ (addMessage (fun j => j) 10 (initStore 5000) "A" c2msg).statsTotalMessages = 1
    ∧ (addMessage (fun j => j) 11
        (addMessage (fun j => j) 10 (initStore 5000) "A" c2msg) "A"
        c2msg).statsTotalMessages = 2
    ∧ ¬ ((addMessage (fun j => j) 11
          (addMessage (fun j => j) 10 (initStore 5000) "A" c2msg) "A"
          c2msg).statsTotalMessages
        = (addMessage (fun j => j) 10 (initStore 5000) "A" c2msg).statsTotalMessages) := by
  decide

/-- C2 (amended): ingesting the same message twice via `addMessage` (with
room in the chat, so the cap does not evict it) leaves exactly one entry
for its id — the second ingestion overwrites the stored value and adds no
new identity — and a `processChatMessages` re-ingestion adds nothing; but
`stats.totalMessages` is incremented by every `addMessage` call, so after
the second ingestion it exceeds its value after the first by exactly one. -/
theorem addMessage_idempotent_entry_but_stats_counted
    (norm : String → String) (now1 now2 : Nat) (s : Store)
    (jid : String) (m : WAMessage)
    (hskip : (m.fromMe && m.protocolHistorySync) = false)
    (hroom : (mset ((mget s.messages (norm jid)).getD [])
        m.key.id (storeMsg m now1)).length ≤ s.maxMessagesPerChat) :
    (mget (addMessage norm now2 (addMessage norm now1 s jid m) jid m).messages
        (norm jid)).getD []
      = mset ((mget s.messages (norm jid)).getD []) m.key.id (storeMsg m now2)
    ∧ ((mget (addMessage norm now2 (addMessage norm now1 s jid m) jid m).messages
          (norm jid)).getD []).length
      = ((mget (addMessage norm now1 s jid m).messages (norm jid)).getD []).length
    ∧ mget ((mget (addMessage norm now2 (addMessage norm now1 s jid m) jid m).messages
          (norm jid)).getD []) m.key.id = some (storeMsg m now2)
    ∧ (addMessage norm now2 (addMessage norm now1 s jid m) jid m).statsTotalMessages
      = (addMessage norm now1 s jid m).statsTotalMessages + 1
    ∧ (addMessage norm now1 s jid m).statsTotalMessages = s.statsTotalMessages + 1
    ∧ (∀ (s' : Store) (j : String),
        mhas ((mget s'.messages j).getD []) m.key.id = true →
        ((mget s'.messages j).getD []).length ≤ s'.maxMessagesPerChat →
        (processChatMessages now2 s' j [m]).1.messages = s'.messages
          ∧ (processChatMessages now2 s' j [m]).2 = 0) := by
  have hmsg : ∀ (st : Store) (now : Nat),
      (addMessage norm now st jid m).messages
        = mset st.messages (norm jid)
            (evictExcess st.maxMessagesPerChat
              (mset ((mget st.messages (norm jid)).getD [])
                m.key.id (storeMsg m now))) := by
    intro st now
    unfold addMessage
    rw [hskip]
    rfl
  have hstats : ∀ (st : Store) (now : Nat),
      (addMessage norm now st jid m).statsTotalMessages
        = st.statsTotalMessages + 1 := by
    intro st now
    unfold addMessage
    rw [hskip]
    rfl
  have hcap : ∀ (st : Store) (now : Nat),
      (addMessage norm now st jid m).maxMessagesPerChat
        = st.maxMessagesPerChat := by
    intro st now
    unfold addMessage
    rw [hskip]
    rfl
  have hnoev1 : evictExcess s.maxMessagesPerChat
      (mset ((mget s.messages (norm jid)).getD []) m.key.id (storeMsg m now1))
      = mset ((mget s.messages (norm jid)).getD []) m.key.id (storeMsg m now1) := by
    rw [evictExcess, if_neg (by omega)]
  have hs1inner : (mget (addMessage norm now1 s jid m).messages (norm jid)).getD []
      = mset ((mget s.messages (norm jid)).getD []) m.key.id (storeMsg m now1) := by
    rw [hmsg s now1, hnoev1, mget_mset_self, Option.getD_some]
  have hlen2eq := length_mset_eq_length_mset ((mget s.messages (norm jid)).getD [])
    m.key.id (storeMsg m now2) (storeMsg m now1)
  have hover : mset ((mget (addMessage norm now1 s jid m).messages (norm jid)).getD [])
      m.key.id (storeMsg m now2)
      = mset ((mget s.messages (norm jid)).getD []) m.key.id (storeMsg m now2) := by
    rw [hs1inner, mset_mset_same]
  have hnoev2 : evictExcess (addMessage norm now1 s jid m).maxMessagesPerChat
      (mset ((mget (addMessage norm now1 s jid m).messages (norm jid)).getD [])
        m.key.id (storeMsg m now2))
      = mset ((mget s.messages (norm jid)).getD []) m.key.id (storeMsg m now2) := by
    rw [hover, hcap s now1, evictExcess, if_neg (by omega)]
  have hs2inner : (mget (addMessage norm now2
        (addMessage norm now1 s jid m) jid m).messages (norm jid)).getD []
      = mset ((mget s.messages (norm jid)).getD []) m.key.id (storeMsg m now2) := by
    rw [hmsg (addMessage norm now1 s jid m) now2, hnoev2, mget_mset_self,
      Option.getD_some]
  refine ⟨hs2inner, ?_, ?_, hstats _ now2, hstats s now1, ?_⟩
  · rw [hs2inner, hs1inner]
    exact hlen2eq
  · rw [hs2inner, mget_mset_self]
  · intro s' j hpresent hlen
    have hfold : ([m].foldl (pcmStep now2) ((mget s'.messages j).getD [], 0))
        = ((mget s'.messages j).getD [], 0) := by
      simp [pcmStep, hpresent]
    have hnoev : evictExcess s'.maxMessagesPerChat ((mget s'.messages j).getD [])
        = (mget s'.messages j).getD [] := by
      rw [evictExcess, if_neg (by omega)]
    have hself : mset s'.messages j ((mget s'.messages j).getD []) = s'.messages := by
      cases hg : mget s'.messages j with
      | none =>
          rw [hg] at hpresent
          simp [mhas, mget] at hpresent
      | some l =>
          rw [Option.getD_some]
          exact mset_self_of_mget s'.messages j l hg
    constructor
    · show mset s'.messages j
        (evictExcess s'.maxMessagesPerChat
          (([m].foldl (pcmStep now2) ((mget s'.messages j).getD [], 0)).1)) = s'.messages
      rw [hfold]
      show mset s'.messages j
        (evictExcess s'.maxMessagesPerChat ((mget s'.messages j).getD [])) = s'.messages
      rw [hnoev]
      exact hself
    · show ([m].foldl (pcmStep now2) ((mget s'.messages j).getD [], 0)).2 = 0
      rw [hfold]

theorem objAssign_mget (src : JsObj) : ∀ (t : JsObj) (k : String),
    (mkeys src).Nodup →
    mget (objAssign t src) k = (mget src k).or (mget t k) := by
  induction src with
  | nil => intro t k _; simp [objAssign, mget]
  | cons q rest ih =>
    intro t k hn
    obtain ⟨k0, v0⟩ := q
    simp only [mkeys, List.map_cons, List.nodup_cons] at hn
    show mget (objAssign (mset t k0 v0) rest) k = _
    rw [ih (mset t k0 v0) k hn.2]
    by_cases hk : k0 = k
    · subst hk
      rw [mget_eq_none_of_not_mem rest k0 hn.1, mget_mset_self]
      rw [mget, if_pos rfl]
      rfl
    · rw [mget_mset_ne t k0 k v0 hk]
      rw [mget, if_neg hk]

/-- C7: `updateChat` on an existing chat sums a positive incoming
`unreadCount` with the existing value (0 when absent), shallow-merges
every field named in the update over the existing chat object (a
non-positive `unreadCount` is copied verbatim), and preserves every
existing field the update does not name; `lastUpdated` is the
store-managed timestamp the merge always refreshes to `Date.now()`. -/
theorem updateChat_merge_semantics
    (now : Nat) (s : Store) (u : JsObj) (r : Nat)
    (hex : mget s.chats (objId u) = some r)
    (hu : (mkeys u).Nodup) :
    (∀ n : Int, mget u "unreadCount" = some (JVal.num n) → 0 < n →
       mget (heapGet (updateChat now s u) r) "unreadCount"
         = some (JVal.num (jsNumOr0 (mget (heapGet s r) "unreadCount") + n)))
    ∧ (∀ (k : String) (v : JVal), mget u k = some v →
        k ≠ "unreadCount" → k ≠ "lastUpdated" →
        mget (heapGet (updateChat now s u) r) k = some v)
    ∧ (∀ n : Int, mget u "unreadCount" = some (JVal.num n) → n ≤ 0 →
        mget (heapGet (updateChat now s u) r) "unreadCount" = some (JVal.num n))
    ∧ (∀ k : String, mget u k = none → k ≠ "lastUpdated" →
        mget (heapGet (updateChat now s u) r) k = mget (heapGet s r) k)
    ∧ mget (heapGet (updateChat now s u) r) "lastUpdated"
        = some (JVal.num now) := by
  have hheap : heapGet (updateChat now s u) r
      = objAssign (heapGet s r)
          (mset (if jsPos (mget u "unreadCount")
                 then mset u "unreadCount"
                   (JVal.num (jsNumOr0 (mget (heapGet s r) "unreadCount")
                     + jsNumOr0 (mget u "unreadCount")))
                 else u)
            "lastUpdated" (JVal.num now)) := by
    simp only [updateChat, hex]
    unfold heapGet
    simp [mget_mset_self]
  have hnodup' : (mkeys (if jsPos (mget u "unreadCount")
      then mset u "unreadCount"
        (JVal.num (jsNumOr0 (mget (heapGet s r) "unreadCount")
          + jsNumOr0 (mget u "unreadCount")))
      else u)).Nodup := by
    by_cases hp : jsPos (mget u "unreadCount")
    · simpa [hp] using mkeys_nodup_mset u _ _ hu
    · simpa [hp] using hu
  have hsrc : (mkeys (mset (if jsPos (mget u "unreadCount")
      then mset u "unreadCount"
        (JVal.num (jsNumOr0 (mget (heapGet s r) "unreadCount")
          + jsNumOr0 (mget u "unreadCount")))
      else u) "lastUpdated" (JVal.num now))).Nodup :=
    mkeys_nodup_mset _ _ _ hnodup'
  have hread : ∀ k : String,
      mget (heapGet (updateChat now s u) r) k
        = (mget (mset (if jsPos (mget u "unreadCount")
            then mset u "unreadCount"
              (JVal.num (jsNumOr0 (mget (heapGet s r) "unreadCount")
                + jsNumOr0 (mget u "unreadCount")))
            else u) "lastUpdated" (JVal.num now)) k).or
          (mget (heapGet s r) k) := by
    intro k
    rw [hheap]
    exact objAssign_mget _ _ k hsrc
  refine ⟨?_, ?_, ?_, ?_, ?_⟩
  · intro n hn hpos
    have hp : jsPos (mget u "unreadCount") = true := by
      rw [hn]; simpa [jsPos] using hpos
    rw [hread "unreadCount"]
    rw [mget_mset_ne _ _ _ _ (by decide)]
    rw [if_pos hp, mget_mset_self]
    rw [hn]
    simp [jsNumOr0]
  · intro k v hk hkuc hklu
    rw [hread k]
    rw [mget_mset_ne _ _ _ _ (Ne.symm hklu)]
    by_cases hp : jsPos (mget u "unreadCount") = true
    · rw [if_pos hp, mget_mset_ne _ _ _ _ (Ne.symm hkuc), hk]
      rfl
    · rw [if_neg hp, hk]
      rfl
  · intro n hn hnonpos
    have hp : jsPos (mget u "unreadCount") = false := by
      rw [hn]; simpa [jsPos] using hnonpos
    rw [hread "unreadCount"]
    rw [mget_mset_ne _ _ _ _ (by decide), hp]
    simp only [Bool.false_eq_true, if_false]
    rw [hn]
    rfl
  · intro k hk hklu
    rw [hread k]
    rw [mget_mset_ne _ _ _ _ (Ne.symm hklu)]
    by_cases hp : jsPos (mget u "unreadCount") = true
    · have hkuc : k ≠ "unreadCount" := by
        intro he
        subst he
        rw [hk] at hp
        simp [jsPos] at hp
      rw [if_pos hp, mget_mset_ne _ _ _ _ (Ne.symm hkuc), hk]
      rfl
    · rw [if_neg hp, hk]
      rfl
  · rw [hread "lastUpdated", mget_mset_self]
    rfl

/-- A concrete pre-existing chat for the C7 and C10 witnesses. -/
def c7chat : JsObj :=
  [("id", JVal.str "c1"), ("name", JVal.str "old"), ("unreadCount", JVal.num 2)]

/-- A store holding `c7chat` under reference 0. -/
def c7store : Store :=
  { initStore 5000 with heap := [(0, c7chat)], nextRef := 1, chats := [("c1", 0)] }

/-- The concrete chat update applied in the C7 witness. -/
def c7upd : JsObj :=
  [("id", JVal.str "c1"), ("unreadCount", JVal.num 3), ("name", JVal.str "new")]

/-- Witness for `updateChat_merge_semantics` at a concrete store. -/
theorem updateChat_merge_semantics_check :
    (mget c7store.chats (objId c7upd) = some 0)
    ∧ ((mkeys c7upd).Nodup)
    ∧ mget (heapGet (updateChat 77 c7store c7upd) 0) "unreadCount"
        = some (JVal.num (jsNumOr0 (mget (heapGet c7store 0) "unreadCount") + 3))
    ∧ mget (heapGet (updateChat 77 c7store c7upd) 0) "name"
        = some (JVal.str "new")
    ∧ mget (heapGet (updateChat 77 c7store c7upd) 0) "lastUpdated"
        = some (JVal.num 77) := by
  refine ⟨by decide, by decide, ?_, ?_, ?_⟩
  · exact (updateChat_merge_semantics 77 c7store c7upd 0 (by decide) (by decide)).1
      3 (by decide) (by decide)
  · exact (updateChat_merge_semantics 77 c7store c7upd 0 (by decide)
      (by decide)).2.1 "name" (JVal.str "new") (by decide) (by decide) (by decide)
  · exact (updateChat_merge_semantics 77 c7store c7upd 0 (by decide)
      (by decide)).2.2.2.2

/-- A store with only the group-metadata backup non-empty. -/
def c9store : Store :=
  { initStore 5000 with
    backupGroupMetadata := [("g1", [("subject", JVal.str "grp")])] }

/-- C9 counterexample: in a backup state whose only non-empty backed-up
mapping is group metadata, the claim requires `hasBackupData` to return
true, but the code (lines 138-142) consults only the chats, messages and
contacts backups and returns false. -/
theorem hasBackupData_counterexample :
    ¬ ((hasBackupData c9store = true) ↔
        (c9store.backupChats ≠ [] ∨ c9store.backupMessages ≠ []
          ∨ c9store.backupContacts ≠ [] ∨ c9store.backupGroupMetadata ≠ [])) := by
  decide

/-- C9 (amended): `hasBackupData` returns true iff at least one of the
backed-up chats, messages or contacts mappings is non-empty; the
group-metadata backup is not consulted. -/
theorem hasBackupData_spec (s : Store) :
    hasBackupData s = true ↔
      (s.backupChats ≠ [] ∨ s.backupMessages ≠ [] ∨ s.backupContacts ≠ []) := by
  cases hc : s.backupChats <;> cases hm : s.backupMessages <;>
    cases hk : s.backupContacts <;>
      simp [hasBackupData, hc, hm, hk, List.isEmpty]

/-- C10: while `isProcessingHistory` is set, every `chats.upsert` event is
dropped whole — the store is returned unchanged, regardless of batch size —
while `chats.update`, `contacts.upsert` and `groups.update` events arriving
in the same window are still applied as their usual store mutations. -/
theorem chats_upsert_dropped_during_sync
    (norm : String → String) (now : Nat) (s : Store)
    (hsync : s.isProcessingHistory = true) :
    (∀ cs, handleEvent norm now s (StoreEvent.chatsUpsert cs) = s)
    ∧ (∀ us, handleEvent norm now s (StoreEvent.chatsUpdate us)
        = us.foldl (fun st u => updateChat now st u) s)
    ∧ (∀ cs, handleEvent norm now s (StoreEvent.contactsUpsert cs)
        = processContactsUpsert norm now s cs)
    ∧ (∀ us, handleEvent norm now s (StoreEvent.groupsUpdate us)
        = us.foldl (fun st u => updateGroupMetadata now st u) s) := by
  refine ⟨?_, fun us => rfl, fun cs => rfl, fun us => rfl⟩
  intro cs
  simp [handleEvent, hsync]

/-- A store in the Syncing state holding one chat, for the C10 witness. -/
def c10store : Store := { c7store with isProcessingHistory := true }

/-- Witness for `chats_upsert_dropped_during_sync`: during a sync a
`chats.upsert` of a brand-new chat leaves the store untouched, while a
`groups.update` in the same window is applied. -/
theorem chats_upsert_dropped_during_sync_check :
    (c10store.isProcessingHistory = true)
    ∧ handleEvent (fun j => j) 5 c10store
        (StoreEvent.chatsUpsert [[("id", JVal.str "fresh")]]) = c10store
    ∧ handleEvent (fun j => j) 5 c10store
        (StoreEvent.groupsUpdate [[("id", JVal.str "g9")]])
      = updateGroupMetadata 5 c10store [("id", JVal.str "g9")] :=
  ⟨rfl,
   (chats_upsert_dropped_during_sync (fun j => j) 5 c10store rfl).1
     [[("id", JVal.str "fresh")]],
   (chats_upsert_dropped_during_sync (fun j => j) 5 c10store rfl).2.2.2
     [[("id", JVal.str "g9")]]⟩

/-- Witness for `addMessage_idempotent_entry_but_stats_counted` at a
concrete store and message. -/
theorem addMessage_idempotent_entry_but_stats_counted_check :
    ((c2msg.fromMe && c2msg.protocolHistorySync) = false)
    ∧ ((mset ((mget (initStore 5000).messages "A").getD [])
        c2msg.key.id (storeMsg c2msg 10)).length ≤ (initStore 5000).maxMessagesPerChat)
    ∧ ((mget (addMessage (fun j => j) 11
          (addMessage (fun j => j) 10 (initStore 5000) "A" c2msg) "A" c2msg).messages
          "A").getD []
        = mset ((mget (initStore 5000).messages "A").getD [])
            c2msg.key.id (storeMsg c2msg 11)) := by
  refine ⟨by decide, by decide, ?_⟩
  exact (addMessage_idempotent_entry_but_stats_counted (fun j => j) 10 11
    (initStore 5000) "A" c2msg (by decide) (by decide)).1

/-- A fold step that leaves a projection unchanged leaves it unchanged over
the whole fold. -/
theorem foldl_pres_field {β γ : Type} (f : Store → β → Store) (g : Store → γ)
    (hstep : ∀ st b, g (f st b) = g st) :
    ∀ (l : List β) (st : Store), g (l.foldl f st) = g st := by
  intro l
  induction l with
  | nil => intro st; rfl
  | cons b rest ih =>
    intro st
    rw [List.foldl_cons, ih, hstep]

theorem pcoStep_messages (now : Nat) (st : Store) (c : JsObj) :
    (pcoStep now st c).messages = st.messages := by
  unfold pcoStep
  by_cases hc : mhas st.chats (objId c) <;> simp [hc]

theorem pcoStep_contacts (now : Nat) (st : Store) (c : JsObj) :
    (pcoStep now st c).contacts = st.contacts := by
  unfold pcoStep
  by_cases hc : mhas st.chats (objId c) <;> simp [hc]

theorem pcoStep_backups (now : Nat) (st : Store) (c : JsObj) :
    (pcoStep now st c).backupChats = st.backupChats
    ∧ (pcoStep now st c).backupMessages = st.backupMessages
    ∧ (pcoStep now st c).backupContacts = st.backupContacts := by
  unfold pcoStep
  by_cases hc : mhas st.chats (objId c) <;> simp [hc]

theorem pco_messages (now : Nat) (cs : List JsObj) (st : Store) :
    (processChatsOptimized now st cs).messages = st.messages :=
  foldl_pres_field (pcoStep now) (fun x => x.messages)
    (pcoStep_messages now) cs st

theorem pco_contacts (now : Nat) (cs : List JsObj) (st : Store) :
    (processChatsOptimized now st cs).contacts = st.contacts :=
  foldl_pres_field (pcoStep now) (fun x => x.contacts)
    (pcoStep_contacts now) cs st

theorem pco_backups (now : Nat) (cs : List JsObj) (st : Store) :
    (processChatsOptimized now st cs).backupChats = st.backupChats
    ∧ (processChatsOptimized now st cs).backupMessages = st.backupMessages
    ∧ (processChatsOptimized now st cs).backupContacts = st.backupContacts :=
  ⟨foldl_pres_field (pcoStep now) (fun x => x.backupChats)
      (fun st c => (pcoStep_backups now st c).1) cs st,
   foldl_pres_field (pcoStep now) (fun x => x.backupMessages)
      (fun st c => (pcoStep_backups now st c).2.1) cs st,
   foldl_pres_field (pcoStep now) (fun x => x.backupContacts)
      (fun st c => (pcoStep_backups now st c).2.2) cs st⟩

theorem pct_chats (norm : String → String) (now : Nat)
    (cs : List JsObj) (st : Store) :
    (processContactsOptimized norm now st cs).chats = st.chats :=
  foldl_pres_field (pctStep norm now) (fun x => x.chats)
    (fun _ _ => rfl) cs st

theorem pct_messages (norm : String → String) (now : Nat)
    (cs : List JsObj) (st : Store) :
    (processContactsOptimized norm now st cs).messages = st.messages :=
  foldl_pres_field (pctStep norm now) (fun x => x.messages)
    (fun _ _ => rfl) cs st

theorem pct_backups (norm : String → String) (now : Nat)
    (cs : List JsObj) (st : Store) :
    (processContactsOptimized norm now st cs).backupChats = st.backupChats
    ∧ (processContactsOptimized norm now st cs).backupMessages = st.backupMessages
    ∧ (processContactsOptimized norm now st cs).backupContacts = st.backupContacts :=
  ⟨foldl_pres_field (pctStep norm now) (fun x => x.backupChats)
      (fun _ _ => rfl) cs st,
   foldl_pres_field (pctStep norm now) (fun x => x.backupMessages)
      (fun _ _ => rfl) cs st,
   foldl_pres_field (pctStep norm now) (fun x => x.backupContacts)
      (fun _ _ => rfl) cs st⟩

theorem pmo_fold_chats (now : Nat) (gs : List (String × List WAMessage))
    (st : Store) : (gs.foldl (pmoStep now) st).chats = st.chats :=
  foldl_pres_field (pmoStep now) (fun x => x.chats) (fun _ _ => rfl) gs st

theorem pmo_fold_contacts (now : Nat) (gs : List (String × List WAMessage))
    (st : Store) : (gs.foldl (pmoStep now) st).contacts = st.contacts :=
  foldl_pres_field (pmoStep now) (fun x => x.contacts) (fun _ _ => rfl) gs st

theorem pmo_fold_backups (now : Nat) (gs : List (String × List WAMessage))
    (st : Store) :
    (gs.foldl (pmoStep now) st).backupChats = st.backupChats
    ∧ (gs.foldl (pmoStep now) st).backupMessages = st.backupMessages
    ∧ (gs.foldl (pmoStep now) st).backupContacts = st.backupContacts :=
  ⟨foldl_pres_field (pmoStep now) (fun x => x.backupChats) (fun _ _ => rfl) gs st,
   foldl_pres_field (pmoStep now) (fun x => x.backupMessages) (fun _ _ => rfl) gs st,
   foldl_pres_field (pmoStep now) (fun x => x.backupContacts) (fun _ _ => rfl) gs st⟩

theorem pco_mget_chats (now : Nat) (cs : List JsObj) :
    ∀ (st : Store) (k : String) (r : Nat),
      mget st.chats k = some r →
      mget (processChatsOptimized now st cs).chats k = some r := by
  induction cs with
  | nil => intro st k r hk; exact hk
  | cons c rest ih =>
    intro st k r hk
    apply ih
    unfold pcoStep
    by_cases hc : mhas st.chats (objId c)
    · simpa [hc] using hk
    · simp only [hc, Bool.false_eq_true, if_false]
      show mget (mset st.chats (objId c) st.nextRef) k = some r
      rw [mget_mset_ne]
      · exact hk
      · intro he
        rw [he] at hc
        exact hc (by simp [mhas, hk])

theorem pco_chats_mhas (now : Nat) (cs : List JsObj) (st : Store) (k : String)
    (h : mhas st.chats k = true) :
    mhas (processChatsOptimized now st cs).chats k = true := by
  rcases Option.isSome_iff_exists.1 h with ⟨r, hr⟩
  simp [mhas, pco_mget_chats now cs st k r hr]

theorem pco_batch_present (now : Nat) (cs : List JsObj) :
    ∀ (st : Store), ∀ c ∈ cs,
      mhas (processChatsOptimized now st cs).chats (objId c) = true := by
  induction cs with
  | nil => intro st c hc; cases hc
  | cons c0 rest ih =>
    intro st c hc
    rcases List.mem_cons.1 hc with he | hm
    · subst he
      have hstep : processChatsOptimized now st (c :: rest)
          = processChatsOptimized now (pcoStep now st c) rest := rfl
      rw [hstep]
      apply pco_chats_mhas
      unfold pcoStep
      by_cases h0 : mhas st.chats (objId c)
      · simp [h0]
      · simp only [h0, Bool.false_eq_true, if_false]
        show mhas (mset st.chats (objId c) st.nextRef) (objId c) = true
        simp [mhas, mget_mset_self]
    · exact ih (pcoStep now st c0) c hm

theorem pco_chats_origin (now : Nat) (cs : List JsObj) :
    ∀ (st : Store) (k : String),
      mhas (processChatsOptimized now st cs).chats k = true →
      mhas st.chats k = true ∨ ∃ c ∈ cs, objId c = k := by
  induction cs with
  | nil => intro st k hk; exact Or.inl hk
  | cons c rest ih =>
    intro st k hk
    rcases ih (pcoStep now st c) k hk with h1 | h1
    · unfold pcoStep at h1
      by_cases hc : mhas st.chats (objId c)
      · rw [if_pos hc] at h1
        exact Or.inl h1
      · rw [if_neg hc] at h1
        have h2 : k ∈ mkeys (mset st.chats (objId c) st.nextRef) :=
          (mhas_iff_mem_mkeys _ k).1 h1
        rcases (mem_mkeys_mset st.chats (objId c) st.nextRef k).1 h2 with h3 | h3
        · exact Or.inl ((mhas_iff_mem_mkeys _ k).2 h3)
        · exact Or.inr ⟨c, List.mem_cons_self _ _, h3.symm⟩
    · rcases h1 with ⟨c', hc', he⟩
      exact Or.inr ⟨c', List.mem_cons_of_mem _ hc', he⟩

theorem pct_mhas_pres (norm : String → String) (now : Nat) (cs : List JsObj) :
    ∀ (st : Store) (k : String), mhas st.contacts k = true →
      mhas (processContactsOptimized norm now st cs).contacts k = true := by
  induction cs with
  | nil => intro st k hk; exact hk
  | cons c rest ih =>
    intro st k hk
    apply ih
    exact mhas_mset_of_mhas st.contacts _ k _ hk

theorem pct_batch_present (norm : String → String) (now : Nat)
    (cs : List JsObj) : ∀ (st : Store), ∀ c ∈ cs,
      mhas (processContactsOptimized norm now st cs).contacts
        (norm (objId c)) = true := by
  induction cs with
  | nil => intro st c hc; cases hc
  | cons c0 rest ih =>
    intro st c hc
    rcases List.mem_cons.1 hc with he | hm
    · subst he
      have hstep : processContactsOptimized norm now st (c :: rest)
          = processContactsOptimized norm now (pctStep norm now st c) rest := rfl
      rw [hstep]
      apply pct_mhas_pres
      show mhas (mset st.contacts (norm (objId c)) _) (norm (objId c)) = true
      simp [mhas, mget_mset_self]
    · exact ih (pctStep norm now st c0) c hm

theorem pcm_messages_mhas_pres (now : Nat) (st : Store) (j : String)
    (ms : List WAMessage) (k : String) (h : mhas st.messages k = true) :
    mhas (processChatMessages now st j ms).1.messages k = true :=
  mhas_mset_of_mhas st.messages j k _ h

theorem pmo_fold_mhas_pres (now : Nat) (gs : List (String × List WAMessage)) :
    ∀ (st : Store) (k : String), mhas st.messages k = true →
      mhas ((gs.foldl (pmoStep now) st)).messages k = true := by
  induction gs with
  | nil => intro st k hk; exact hk
  | cons g rest ih =>
    intro st k hk
    exact ih (pmoStep now st g) k (pcm_messages_mhas_pres now st g.1 g.2 k hk)

theorem pmo_fold_origin (now : Nat) (gs : List (String × List WAMessage)) :
    ∀ (st : Store) (k : String),
      mhas ((gs.foldl (pmoStep now) st)).messages k = true →
      mhas st.messages k = true ∨ k ∈ mkeys gs := by
  induction gs with
  | nil => intro st k hk; exact Or.inl hk
  | cons g rest ih =>
    intro st k hk
    rcases ih (pmoStep now st g) k hk with h1 | h1
    · have h2 : k ∈ mkeys (mset st.messages g.1 _) :=
        (mhas_iff_mem_mkeys _ k).1 h1
      rcases (mem_mkeys_mset st.messages g.1 _ k).1 h2 with h3 | h3
      · exact Or.inl ((mhas_iff_mem_mkeys _ k).2 h3)
      · exact Or.inr (h3 ▸ List.mem_cons_self _ _)
    · exact Or.inr (List.mem_cons_of_mem _ h1)

theorem gbj_keys_origin (norm : String → String) :
    ∀ (ms : List WAMessage) (acc : List (String × List WAMessage)) (k : String),
      k ∈ mkeys (ms.foldl (gbjStep norm) acc) →
      k ∈ mkeys acc ∨ ∃ m ∈ ms, norm m.key.remoteJid = k := by
  intro ms
  induction ms with
  | nil => intro acc k hk; exact Or.inl hk
  | cons m rest ih =>
    intro acc k hk
    rcases ih (gbjStep norm acc m) k hk with h1 | h1
    · simp only [gbjStep] at h1
      cases hg : mget acc (norm m.key.remoteJid) with
      | some g =>
          have h1' : k ∈ mkeys (mset acc (norm m.key.remoteJid) (g ++ [m])) := by
            rw [hg] at h1
            exact h1
          rcases (mem_mkeys_mset acc _ _ k).1 h1' with h3 | h3
          · exact Or.inl h3
          · exact Or.inr ⟨m, List.mem_cons_self _ _, h3.symm⟩
      | none =>
          have h1' : k ∈ mkeys (acc ++ [(norm m.key.remoteJid, [m])]) := by
            rw [hg] at h1
            exact h1
          simp only [mkeys, List.map_append, List.mem_append] at h1'
          rcases h1' with h3 | h3
          · exact Or.inl h3
          · simp only [List.map_cons, List.map_nil, List.mem_singleton] at h3
            exact Or.inr ⟨m, List.mem_cons_self _ _, h3.symm⟩
    · rcases h1 with ⟨m', hm', he⟩
      exact Or.inr ⟨m', List.mem_cons_of_mem _ hm', he⟩

theorem gbj_fold_ne_nil (norm : String → String) :
    ∀ (ms : List WAMessage) (acc : List (String × List WAMessage)),
      acc ≠ [] → ms.foldl (gbjStep norm) acc ≠ [] := by
  intro ms
  induction ms with
  | nil => intro acc h; exact h
  | cons m rest ih =>
    intro acc h
    apply ih
    cases hg : mget acc (norm m.key.remoteJid) with
    | some g =>
        have hs : gbjStep norm acc m = mset acc (norm m.key.remoteJid) (g ++ [m]) := by
          simp [gbjStep, hg]
        rw [hs]
        exact mset_ne_nil acc _ _
    | none =>
        have hs : gbjStep norm acc m = acc ++ [(norm m.key.remoteJid, [m])] := by
          simp [gbjStep, hg]
        rw [hs]
        intro he
        rcases List.append_eq_nil.1 he with ⟨h1, _⟩
        exact h h1

theorem groupByJid_ne_nil (norm : String → String) (ms : List WAMessage)
    (h : ms ≠ []) : groupByJid norm ms ≠ [] := by
  cases ms with
  | nil => exact absurd rfl h
  | cons m rest =>
    unfold groupByJid
    rw [List.foldl_cons]
    apply gbj_fold_ne_nil
    simp [gbjStep, mget]

theorem pmo_fold_messages_ne_nil (now : Nat) :
    ∀ (gs : List (String × List WAMessage)) (st : Store),
      gs ≠ [] → (gs.foldl (pmoStep now) st).messages ≠ [] := by
  intro gs
  induction gs with
  | nil => intro st h; exact absurd rfl h
  | cons g rest ih =>
    intro st _
    cases rest with
    | nil =>
        show (pmoStep now st g).messages ≠ []
        exact mset_ne_nil _ _ _
    | cons g2 r2 =>
        rw [List.foldl_cons]
        exact ih (pmoStep now st g) (by simp)

theorem hasValidData_of_chats (s : Store) (h : s.chats ≠ []) :
    hasValidData s = true := by
  unfold hasValidData
  cases hc : s.chats with
  | nil => exact absurd hc h
  | cons a t => simp [hc, List.isEmpty]

theorem hasValidData_of_messages (s : Store) (h : s.messages ≠ []) :
    hasValidData s = true := by
  unfold hasValidData
  cases hc : s.messages with
  | nil => exact absurd hc h
  | cons a t => simp [hc, List.isEmpty]

theorem hasValidData_of_contacts (s : Store) (h : s.contacts ≠ []) :
    hasValidData s = true := by
  unfold hasValidData
  cases hc : s.contacts with
  | nil => exact absurd hc h
  | cons a t => simp [hc, List.isEmpty]

theorem hasValidData_cases (s : Store) (h : hasValidData s = true) :
    s.chats ≠ [] ∨ s.messages ≠ [] ∨ s.contacts ≠ [] := by
  by_contra hc
  push_neg at hc
  unfold hasValidData at h
  rw [hc.1, hc.2.1, hc.2.2] at h
  simp [List.isEmpty] at h

theorem startPhase_core (now : Nat) (s : Store) :
    (historyStartPhase now s).heap = s.heap
    ∧ (historyStartPhase now s).nextRef = s.nextRef
    ∧ (historyStartPhase now s).chats = s.chats
    ∧ (historyStartPhase now s).messages = s.messages
    ∧ (historyStartPhase now s).contacts = s.contacts
    ∧ (historyStartPhase now s).groupMetadata = s.groupMetadata
    ∧ (historyStartPhase now s).maxMessagesPerChat = s.maxMessagesPerChat := by
  unfold historyStartPhase createBackup
  by_cases h1 : s.isProcessingHistory <;> by_cases h2 : hasValidData s <;>
    by_cases h3 : s.preserveDataDuringSync <;> simp [h1, h2, h3]

theorem startPhase_backup_of_invalid (now : Nat) (s : Store)
    (hv : hasValidData s = false) :
    (historyStartPhase now s).backupChats = s.backupChats
    ∧ (historyStartPhase now s).backupMessages = s.backupMessages
    ∧ (historyStartPhase now s).backupContacts = s.backupContacts := by
  unfold historyStartPhase
  by_cases h1 : s.isProcessingHistory <;> simp [h1, hv]

theorem finalize_mappings (s : Store)
    (h : hasValidData s = true ∨ hasBackupData s = false) :
    (finalizeSyncProcess s).chats = s.chats
    ∧ (finalizeSyncProcess s).messages = s.messages
    ∧ (finalizeSyncProcess s).contacts = s.contacts
    ∧ (finalizeSyncProcess s).heap = s.heap
    ∧ (finalizeSyncProcess s).nextRef = s.nextRef
    ∧ (finalizeSyncProcess s).groupMetadata = s.groupMetadata := by
  unfold finalizeSyncProcess clearBackup
  rcases h with h | h
  · simp [h]
  · by_cases hv : hasValidData s = true
    · simp [hv]
    · simp [hv, h]

theorem guard_pco (now : Nat) (st : Store) (cs : List JsObj) :
    (if cs.length > 0 then processChatsOptimized now st cs else st)
      = processChatsOptimized now st cs := by
  cases cs <;> simp [processChatsOptimized]

theorem guard_pct (norm : String → String) (now : Nat) (st : Store)
    (cs : List JsObj) :
    (if cs.length > 0 then processContactsOptimized norm now st cs else st)
      = processContactsOptimized norm now st cs := by
  cases cs <;> simp [processContactsOptimized]

theorem guard_pmo (norm : String → String) (now : Nat) (st : Store)
    (ms : List WAMessage) :
    (if ms.length > 0 then processMessagesOptimized norm now st ms else st)
      = processMessagesOptimized norm now st ms := by
  cases ms <;> simp [processMessagesOptimized, groupByJid]

theorem historyMergePhase_eq (norm : String → String) (now : Nat)
    (s : Store) (h : HistoryData) :
    historyMergePhase norm now s h
      = updateStats (processMessagesOptimized norm now
          (processContactsOptimized norm now
            (processChatsOptimized now (mergeBase s h) h.chats)
            h.contacts)
          h.messages) := by
  simp only [historyMergePhase]
  rw [guard_pco, guard_pct, guard_pmo]

theorem pmo_chats (norm : String → String) (now : Nat) (st : Store)
    (ms : List WAMessage) :
    (processMessagesOptimized norm now st ms).chats = st.chats :=
  pmo_fold_chats now _ st

theorem pmo_contacts (norm : String → String) (now : Nat) (st : Store)
    (ms : List WAMessage) :
    (processMessagesOptimized norm now st ms).contacts = st.contacts :=
  pmo_fold_contacts now _ st

theorem pmo_backups (norm : String → String) (now : Nat) (st : Store)
    (ms : List WAMessage) :
    (processMessagesOptimized norm now st ms).backupChats = st.backupChats
    ∧ (processMessagesOptimized norm now st ms).backupMessages = st.backupMessages
    ∧ (processMessagesOptimized norm now st ms).backupContacts = st.backupContacts :=
  pmo_fold_backups now _ st

theorem pmo_mhas_pres (norm : String → String) (now : Nat) (st : Store)
    (ms : List WAMessage) (k : String) (h : mhas st.messages k = true) :
    mhas (processMessagesOptimized norm now st ms).messages k = true :=
  pmo_fold_mhas_pres now _ st k h

theorem pmo_origin (norm : String → String) (now : Nat) (st : Store)
    (ms : List WAMessage) (k : String)
    (h : mhas (processMessagesOptimized norm now st ms).messages k = true) :
    mhas st.messages k = true ∨ ∃ m ∈ ms, norm m.key.remoteJid = k := by
  rcases pmo_fold_origin now (groupByJid norm ms) st k h with h1 | h1
  · exact Or.inl h1
  · rcases gbj_keys_origin norm ms [] k h1 with h2 | h2
    · simp [mkeys] at h2
    · exact Or.inr h2

theorem pmo_messages_ne_nil (norm : String → String) (now : Nat) (st : Store)
    (ms : List WAMessage) (h : ms ≠ []) :
    (processMessagesOptimized norm now st ms).messages ≠ [] :=
  pmo_fold_messages_ne_nil now _ st (groupByJid_ne_nil norm ms h)

theorem pco_chats_ne_nil (now : Nat) (cs : List JsObj) (st : Store)
    (h : cs ≠ []) : (processChatsOptimized now st cs).chats ≠ [] := by
  cases cs with
  | nil => exact absurd rfl h
  | cons c rest =>
      exact mhas_ne_nil _ _
        (pco_batch_present now (c :: rest) st c (List.mem_cons_self _ _))

theorem pct_contacts_ne_nil (norm : String → String) (now : Nat)
    (cs : List JsObj) (st : Store) (h : cs ≠ []) :
    (processContactsOptimized norm now st cs).contacts ≠ [] := by
  cases cs with
  | nil => exact absurd rfl h
  | cons c rest =>
      exact mhas_ne_nil _ _
        (pct_batch_present norm now (c :: rest) st c (List.mem_cons_self _ _))

theorem mergeBase_contacts (s : Store) (h : HistoryData) :
    (mergeBase s h).contacts = s.contacts := by
  unfold mergeBase
  split <;> rfl

theorem mergeBase_backups (s : Store) (h : HistoryData) :
    (mergeBase s h).backupChats = s.backupChats
    ∧ (mergeBase s h).backupMessages = s.backupMessages
    ∧ (mergeBase s h).backupContacts = s.backupContacts := by
  unfold mergeBase
  split <;> exact ⟨rfl, rfl, rfl⟩

theorem mergeBase_of_false (s : Store) (h : HistoryData)
    (hc : (h.isLatest && (decide (h.chats.length > 10)
      || decide (h.messages.length > 100))) = false) :
    mergeBase s h = s := by
  unfold mergeBase
  rw [hc]
  rfl

theorem mergeBase_of_true (s : Store) (h : HistoryData)
    (hc : (h.isLatest && (decide (h.chats.length > 10)
      || decide (h.messages.length > 100))) = true) :
    (mergeBase s h).chats = [] ∧ (mergeBase s h).messages = [] := by
  unfold mergeBase
  rw [hc]
  exact ⟨rfl, rfl⟩

theorem cond_batch_ne_nil (h : HistoryData)
    (hc : (h.isLatest && (decide (h.chats.length > 10)
      || decide (h.messages.length > 100))) = true) :
    h.chats ≠ [] ∨ h.messages ≠ [] := by
  simp only [Bool.and_eq_true, Bool.or_eq_true, decide_eq_true_eq] at hc
  rcases hc.2 with h1 | h1
  · exact Or.inl (List.ne_nil_of_length_pos (by omega))
  · exact Or.inr (List.ne_nil_of_length_pos (by omega))

theorem mget_cons_self (k : String) (r : Nat) (t : List (String × Nat)) :
    mget ((k, r) :: t) k = some r := by
  simp [mget]

/-- The merge phase yields valid data whenever the batch is non-empty. -/
theorem merge_valid_of_batch (norm : String → String) (now : Nat)
    (s : Store) (h : HistoryData)
    (hb : h.chats ≠ [] ∨ h.messages ≠ [] ∨ h.contacts ≠ []) :
    hasValidData (historyMergePhase norm now s h) = true := by
  rw [historyMergePhase_eq]
  rcases hb with hb | hb | hb
  · apply hasValidData_of_chats
    show (processMessagesOptimized norm now _ h.messages).chats ≠ []
    rw [pmo_chats, pct_chats]
    exact pco_chats_ne_nil now h.chats _ hb
  · apply hasValidData_of_messages
    exact pmo_messages_ne_nil norm now _ h.messages hb
  · apply hasValidData_of_contacts
    show (processMessagesOptimized norm now _ h.messages).contacts ≠ []
    rw [pmo_contacts]
    exact pct_contacts_ne_nil norm now h.contacts _ hb

/-- The merge phase keeps valid data valid when no clear fires. -/
theorem merge_valid_of_valid (norm : String → String) (now : Nat)
    (s : Store) (h : HistoryData) (hv : hasValidData s = true) :
    hasValidData (historyMergePhase norm now s h) = true := by
  by_cases hc : (h.isLatest && (decide (h.chats.length > 10)
      || decide (h.messages.length > 100))) = true
  · rcases cond_batch_ne_nil h hc with h1 | h1
    · exact merge_valid_of_batch norm now s h (Or.inl h1)
    · exact merge_valid_of_batch norm now s h (Or.inr (Or.inl h1))
  · rw [historyMergePhase_eq]
    rw [mergeBase_of_false s h (by simpa using hc)]
    rcases hasValidData_cases s hv with h1 | h1 | h1
    · apply hasValidData_of_chats
      show (processMessagesOptimized norm now _ h.messages).chats ≠ []
      rw [pmo_chats, pct_chats]
      cases hcs : s.chats with
      | nil => exact absurd hcs h1
      | cons p t =>
          obtain ⟨k, r⟩ := p
          apply mhas_ne_nil _ k
          have hm : mget s.chats k = some r := by rw [hcs]; exact mget_cons_self k r t
          simp [mhas, pco_mget_chats now h.chats s k r hm]
    · apply hasValidData_of_messages
      cases hms : s.messages with
      | nil => exact absurd hms h1
      | cons p t =>
          apply mhas_ne_nil _ p.1
          apply pmo_mhas_pres
          show mhas (processContactsOptimized norm now _ h.contacts).messages p.1 = true
          rw [pct_messages, pco_messages]
          rw [hms]
          obtain ⟨k, v⟩ := p
          simp [mhas, mget]
    · apply hasValidData_of_contacts
      show (processMessagesOptimized norm now _ h.messages).contacts ≠ []
      rw [pmo_contacts]
      cases hct : s.contacts with
      | nil => exact absurd hct h1
      | cons p t =>
          apply mhas_ne_nil _ p.1
          apply pct_mhas_pres
          show mhas (processChatsOptimized now s h.chats).contacts p.1 = true
          rw [pco_contacts, hct]
          obtain ⟨k, v⟩ := p
          simp [mhas, mget]

/-- The merge phase leaves the backup slots untouched. -/
theorem merge_backups (norm : String → String) (now : Nat)
    (s : Store) (h : HistoryData) :
    (historyMergePhase norm now s h).backupChats = s.backupChats
    ∧ (historyMergePhase norm now s h).backupMessages = s.backupMessages
    ∧ (historyMergePhase norm now s h).backupContacts = s.backupContacts := by
  rw [historyMergePhase_eq]
  refine ⟨?_, ?_, ?_⟩
  · show (processMessagesOptimized norm now _ h.messages).backupChats = _
    rw [(pmo_backups norm now _ _).1, (pct_backups norm now _ _).1,
      (pco_backups now _ _).1, (mergeBase_backups s h).1]
  · show (processMessagesOptimized norm now _ h.messages).backupMessages = _
    rw [(pmo_backups norm now _ _).2.1, (pct_backups norm now _ _).2.1,
      (pco_backups now _ _).2.1, (mergeBase_backups s h).2.1]
  · show (processMessagesOptimized norm now _ h.messages).backupContacts = _
    rw [(pmo_backups norm now _ _).2.2, (pct_backups norm now _ _).2.2,
      (pco_backups now _ _).2.2, (mergeBase_backups s h).2.2]

theorem merge_chats (norm : String → String) (now : Nat)
    (s : Store) (h : HistoryData) :
    (historyMergePhase norm now s h).chats
      = (processChatsOptimized now (mergeBase s h) h.chats).chats := by
  rw [historyMergePhase_eq]
  show (processMessagesOptimized norm now _ h.messages).chats = _
  rw [pmo_chats, pct_chats]

theorem merge_contacts (norm : String → String) (now : Nat)
    (s : Store) (h : HistoryData) :
    (historyMergePhase norm now s h).contacts
      = (processContactsOptimized norm now
          (processChatsOptimized now (mergeBase s h) h.chats)
          h.contacts).contacts := by
  rw [historyMergePhase_eq]
  show (processMessagesOptimized norm now _ h.messages).contacts = _
  rw [pmo_contacts]

theorem merge_messages (norm : String → String) (now : Nat)
    (s : Store) (h : HistoryData) :
    (historyMergePhase norm now s h).messages
      = (processMessagesOptimized norm now
          (processContactsOptimized norm now
            (processChatsOptimized now (mergeBase s h) h.chats)
            h.contacts)
          h.messages).messages := by
  rw [historyMergePhase_eq]
  rfl

theorem startPhase_valid (now : Nat) (s : Store) :
    hasValidData (historyStartPhase now s) = hasValidData s := by
  have h := startPhase_core now s
  unfold hasValidData
  rw [h.2.2.1, h.2.2.2.1, h.2.2.2.2.1]

theorem hasBackupData_eq_of_fields {a b : Store}
    (h1 : a.backupChats = b.backupChats)
    (h2 : a.backupMessages = b.backupMessages)
    (h3 : a.backupContacts = b.backupContacts) :
    hasBackupData a = hasBackupData b := by
  unfold hasBackupData
  rw [h1, h2, h3]

/-- The pre-existing chat of the C4 scenarios. -/
def c4chatOld : JsObj := [("id", JVal.str "old"), ("name", JVal.str "keep")]

/-- The pre-existing stored message of the C4 scenarios. -/
def c4msgOld : StoredMessage :=
  storeMsg { key := { remoteJid := "mold", id := "om1" },
             messageTimestamp := some 1, fromMe := false,
             protocolHistorySync := false, payload := "" } 1

/-- A store that already holds one chat and one message before a sync. -/
def c4pre : Store :=
  { initStore 5000 with
    heap := [(0, c4chatOld)]
    nextRef := 1
    chats := [("old", 0)]
    messages := [("mold", [("om1", c4msgOld)])] }

/-- A batch message for the C4 scenarios. -/
def c4msg (i : Nat) : WAMessage :=
  { key := { remoteJid := "mold", id := "q" ++ toString i },
    messageTimestamp := some (Int.ofNat i), fromMe := false,
    protocolHistorySync := false, payload := "" }

/-- Scenario 2 of the spec: a "latest" batch of 2 chats and 5 messages. -/
def c4small : HistoryData :=
  { chats := [[("id", JVal.str "n1")], [("id", JVal.str "n2")]],
    contacts := [],
    messages := (List.range 5).map c4msg,
    isLatest := true, syncType := 0, progress := 100 }

/-- Scenario 3 of the spec: a "latest" batch of 20 chats. -/
def c4big : HistoryData :=
  { chats := (List.range 20).map (fun i => [("id", JVal.str ("b" ++ toString i))]),
    contacts := [], messages := [],
    isLatest := true, syncType := 0, progress := 100 }

/-- C4: for every bulk history batch whose `syncType` is not the on-demand
tag 6, the existing chats and messages are cleared before merging iff the
batch is marked latest AND has more than 10 chats or more than 100
messages; contacts are merged and never cleared in either case; in
particular a latest batch of 2 chats and 5 messages leaves previously
accumulated chats and messages in place and merges into them, while a
latest batch of 20 chats clears them first. -/
theorem history_clear_heuristic
    (norm : String → String) (now : Nat) (s : Store) (h : HistoryData)
    (hsync : h.syncType ≠ 6)
    (hne : h.chats ≠ [] ∨ h.messages ≠ [] ∨ h.contacts ≠ []
           ∨ hasValidData s = true ∨ hasBackupData s = false) :
    ((∀ c ∈ h.chats,
        mhas (processHistorySet norm now s h).chats (objId c) = true)
    ∧ (∀ c ∈ h.contacts,
        mhas (processHistorySet norm now s h).contacts (norm (objId c)) = true)
    ∧ (∀ k, mhas s.contacts k = true →
        mhas (processHistorySet norm now s h).contacts k = true)
    ∧ ((h.isLatest && (decide (h.chats.length > 10)
          || decide (h.messages.length > 100))) = false →
        (∀ (k : String) (r : Nat), mget s.chats k = some r →
            mget (processHistorySet norm now s h).chats k = some r)
        ∧ (∀ k, mhas s.messages k = true →
            mhas (processHistorySet norm now s h).messages k = true))
    ∧ ((h.isLatest && (decide (h.chats.length > 10)
          || decide (h.messages.length > 100))) = true →
        (∀ k, mhas (processHistorySet norm now s h).chats k = true →
            ∃ c ∈ h.chats, objId c = k)
        ∧ (∀ k, mhas (processHistorySet norm now s h).messages k = true →
            ∃ m ∈ h.messages, norm m.key.remoteJid = k)))
    ∧ (mhas (processHistorySet (fun j => j) 7 c4pre c4small).chats "old" = true
       ∧ mhas (processHistorySet (fun j => j) 7 c4pre c4small).chats "n1" = true
       ∧ (mget (processHistorySet (fun j => j) 7 c4pre c4small).messages
            "mold").map (fun l => mhas l "om1") = some true)
    ∧ (mhas (processHistorySet (fun j => j) 7 c4pre c4big).chats "old" = false
       ∧ mhas (processHistorySet (fun j => j) 7 c4pre c4big).chats "b0" = true) := by
  have hvb : hasValidData (historyMergePhase norm now (historyStartPhase now s) h) = true
      ∨ hasBackupData (historyMergePhase norm now (historyStartPhase now s) h) = false := by
    rcases hne with hb | hb | hb | hb | hb
    · exact Or.inl (merge_valid_of_batch norm now _ h (Or.inl hb))
    · exact Or.inl (merge_valid_of_batch norm now _ h (Or.inr (Or.inl hb)))
    · exact Or.inl (merge_valid_of_batch norm now _ h (Or.inr (Or.inr hb)))
    · exact Or.inl (merge_valid_of_valid norm now _ h
        (by rw [startPhase_valid]; exact hb))
    · by_cases hv2 : hasValidData s = true
      · exact Or.inl (merge_valid_of_valid norm now _ h
          (by rw [startPhase_valid]; exact hv2))
      · right
        have hv2' : hasValidData s = false := by
          cases hq : hasValidData s
          · rfl
          · exact absurd hq hv2
        have hsb := startPhase_backup_of_invalid now s hv2'
        have hmb := merge_backups norm now (historyStartPhase now s) h
        rw [hasBackupData_eq_of_fields (hmb.1.trans hsb.1)
          (hmb.2.1.trans hsb.2.1) (hmb.2.2.trans hsb.2.2)]
        exact hb
  have hPHS : (processHistorySet norm now s h).chats
        = (historyMergePhase norm now (historyStartPhase now s) h).chats
      ∧ (processHistorySet norm now s h).messages
        = (historyMergePhase norm now (historyStartPhase now s) h).messages
      ∧ (processHistorySet norm now s h).contacts
        = (historyMergePhase norm now (historyStartPhase now s) h).contacts := by
    simp only [processHistorySet]
    rw [if_neg hsync]
    by_cases hfl : (h.isLatest || decide (h.progress ≥ 100)) = true
    · rw [if_pos hfl]
      have hf := finalize_mappings _ hvb
      exact ⟨hf.1, hf.2.1, hf.2.2.1⟩
    · rw [if_neg hfl]
      exact ⟨rfl, rfl, rfl⟩
  have hsc := startPhase_core now s
  refine ⟨⟨?_, ?_, ?_, ?_, ?_⟩, by decide, by decide⟩
  · intro c hc
    rw [hPHS.1, merge_chats]
    exact pco_batch_present now h.chats _ c hc
  · intro c hc
    rw [hPHS.2.2, merge_contacts]
    exact pct_batch_present norm now h.contacts _ c hc
  · intro k hk
    rw [hPHS.2.2, merge_contacts]
    apply pct_mhas_pres
    rw [pco_contacts, mergeBase_contacts, hsc.2.2.2.2.1]
    exact hk
  · intro hcond
    constructor
    · intro k r hk
      rw [hPHS.1, merge_chats, mergeBase_of_false _ _ hcond]
      apply pco_mget_chats
      rw [hsc.2.2.1]
      exact hk
    · intro k hk
      rw [hPHS.2.1, merge_messages]
      apply pmo_mhas_pres
      rw [pct_messages, pco_messages, mergeBase_of_false _ _ hcond, hsc.2.2.2.1]
      exact hk
  · intro hcond
    constructor
    · intro k hk
      rw [hPHS.1, merge_chats] at hk
      rcases pco_chats_origin now h.chats _ k hk with h1 | h1
      · rw [(mergeBase_of_true _ _ hcond).1] at h1
        simp [mhas, mget] at h1
      · exact h1
    · intro k hk
      rw [hPHS.2.1, merge_messages] at hk
      rcases pmo_origin norm now _ h.messages k hk with h1 | h1
      · rw [pct_messages, pco_messages, (mergeBase_of_true _ _ hcond).2] at h1
        simp [mhas, mget] at h1
      · exact h1

/-- Witness for `history_clear_heuristic` at the Scenario-2 inputs. -/
theorem history_clear_heuristic_check :
    (c4small.syncType ≠ 6)
    ∧ (c4small.chats ≠ [] ∨ c4small.messages ≠ [] ∨ c4small.contacts ≠ []
       ∨ hasValidData c4pre = true ∨ hasBackupData c4pre = false)
    ∧ (∀ c ∈ c4small.chats,
        mhas (processHistorySet (fun j => j) 7 c4pre c4small).chats
          (objId c) = true) :=
  ⟨by decide, by decide,
   (history_clear_heuristic (fun j => j) 7 c4pre c4small
     (by decide) (by decide)).1.1⟩

/-- The pre-sync store of the C3 counterexample: one chat under ref 0. -/
def c3pre : Store :=
  { initStore 5000 with
    heap := [(0, [("id", JVal.str "a"), ("name", JVal.str "x")])]
    nextRef := 1
    chats := [("a", 0)]
    isProcessingHistory := true }

/-- C3 counterexample: after `createBackup`, a single `updateChat` merges
the update into the live chat object in place (`Object.assign`); the
backup's `new Map(this.chats)` copy holds a reference to the same object,
so `restoreFromBackup` returns the mutated chat and the observable chats
mapping differs from the pre-backup state. -/
theorem backup_restore_counterexample :
    ¬ (chatsView (restoreFromBackup
          (updateChat 9 (createBackup c3pre)
            [("id", JVal.str "a"), ("name", JVal.str "y")]))
        = chatsView c3pre) := by
  decide

/-- A store mutation applied inside a sync window (claim C3). -/
inductive MutOp where
  | addMsg (jid : String) (m : WAMessage) (now : Nat)
  | contactsUpsert (cs : List JsObj) (now : Nat)
  | groupMetaUpdate (u : JsObj) (now : Nat)
  | chatUpsert (c : JsObj) (now : Nat)
  | chatUpdate (u : JsObj) (now : Nat)
  | historyBatch (h : HistoryData) (now : Nat)
deriving Repr

def applyMutOp (norm : String → String) (s : Store) : MutOp → Store
  | MutOp.addMsg jid m now => addMessage norm now s jid m
  | MutOp.contactsUpsert cs now => processContactsUpsert norm now s cs
  | MutOp.groupMetaUpdate u now => updateGroupMetadata now s u
  | MutOp.chatUpsert c now => upsertChat now s c
  | MutOp.chatUpdate u now => updateChat now s u
  | MutOp.historyBatch h now => processHistorySet norm now s h

def applyMutOps (norm : String → String) (s : Store) (ops : List MutOp) : Store :=
  ops.foldl (applyMutOp norm) s

/-- The restriction the counterexample forces on the claim: chat merges
must not target ids captured by the backup (their objects are aliased by
the backup's shallow map copy), and history batches must stay strictly
inside the sync window (not re-create the backup, not finalize). -/
def safeOp (bk : List String) : MutOp → Bool
  | MutOp.chatUpsert c _ => !bk.contains (objId c)
  | MutOp.chatUpdate u _ => !bk.contains (objId u)
  | MutOp.historyBatch h _ => h.syncType == 6 || (!h.isLatest && decide (h.progress < 100))
  | _ => true

theorem addMessage_fields (norm : String → String) (now : Nat) (s : Store)
    (jid : String) (m : WAMessage) :
    (addMessage norm now s jid m).heap = s.heap
    ∧ (addMessage norm now s jid m).nextRef = s.nextRef
    ∧ (addMessage norm now s jid m).chats = s.chats
    ∧ (addMessage norm now s jid m).contacts = s.contacts
    ∧ (addMessage norm now s jid m).groupMetadata = s.groupMetadata
    ∧ (addMessage norm now s jid m).backupChats = s.backupChats
    ∧ (addMessage norm now s jid m).backupMessages = s.backupMessages
    ∧ (addMessage norm now s jid m).backupContacts = s.backupContacts
    ∧ (addMessage norm now s jid m).backupGroupMetadata = s.backupGroupMetadata
    ∧ (addMessage norm now s jid m).isProcessingHistory = s.isProcessingHistory
    ∧ (addMessage norm now s jid m).preserveDataDuringSync = s.preserveDataDuringSync := by
  unfold addMessage
  by_cases hs : (m.fromMe && m.protocolHistorySync) = true <;> simp [hs]

theorem pcu_fields (norm : String → String) (now : Nat) (cs : List JsObj)
    (st : Store) :
    (processContactsUpsert norm now st cs).heap = st.heap
    ∧ (processContactsUpsert norm now st cs).nextRef = st.nextRef
    ∧ (processContactsUpsert norm now st cs).chats = st.chats
    ∧ (processContactsUpsert norm now st cs).messages = st.messages
    ∧ (processContactsUpsert norm now st cs).groupMetadata = st.groupMetadata
    ∧ (processContactsUpsert norm now st cs).backupChats = st.backupChats
    ∧ (processContactsUpsert norm now st cs).backupMessages = st.backupMessages
    ∧ (processContactsUpsert norm now st cs).backupContacts = st.backupContacts
    ∧ (processContactsUpsert norm now st cs).backupGroupMetadata = st.backupGroupMetadata
    ∧ (processContactsUpsert norm now st cs).isProcessingHistory = st.isProcessingHistory
    ∧ (processContactsUpsert norm now st cs).preserveDataDuringSync = st.preserveDataDuringSync :=
  ⟨foldl_pres_field (pcuStep norm now) (fun x => x.heap) (fun _ _ => rfl) cs st,
   foldl_pres_field (pcuStep norm now) (fun x => x.nextRef) (fun _ _ => rfl) cs st,
   foldl_pres_field (pcuStep norm now) (fun x => x.chats) (fun _ _ => rfl) cs st,
   foldl_pres_field (pcuStep norm now) (fun x => x.messages) (fun _ _ => rfl) cs st,
   foldl_pres_field (pcuStep norm now) (fun x => x.groupMetadata) (fun _ _ => rfl) cs st,
   foldl_pres_field (pcuStep norm now) (fun x => x.backupChats) (fun _ _ => rfl) cs st,
   foldl_pres_field (pcuStep norm now) (fun x => x.backupMessages) (fun _ _ => rfl) cs st,
   foldl_pres_field (pcuStep norm now) (fun x => x.backupContacts) (fun _ _ => rfl) cs st,
   foldl_pres_field (pcuStep norm now) (fun x => x.backupGroupMetadata) (fun _ _ => rfl) cs st,
   foldl_pres_field (pcuStep norm now) (fun x => x.isProcessingHistory) (fun _ _ => rfl) cs st,
   foldl_pres_field (pcuStep norm now) (fun x => x.preserveDataDuringSync) (fun _ _ => rfl) cs st⟩

theorem upsertChat_fields (now : Nat) (s : Store) (c : JsObj) :
    (upsertChat now s c).messages = s.messages
    ∧ (upsertChat now s c).contacts = s.contacts
    ∧ (upsertChat now s c).groupMetadata = s.groupMetadata
    ∧ (upsertChat now s c).backupChats = s.backupChats
    ∧ (upsertChat now s c).backupMessages = s.backupMessages
    ∧ (upsertChat now s c).backupContacts = s.backupContacts
    ∧ (upsertChat now s c).backupGroupMetadata = s.backupGroupMetadata
    ∧ (upsertChat now s c).isProcessingHistory = s.isProcessingHistory
    ∧ (upsertChat now s c).preserveDataDuringSync = s.preserveDataDuringSync := by
  unfold upsertChat
  cases mget s.chats (objId c) <;> simp

theorem updateChat_fields (now : Nat) (s : Store) (u : JsObj) :
    (updateChat now s u).nextRef = s.nextRef
    ∧ (updateChat now s u).chats = s.chats
    ∧ (updateChat now s u).messages = s.messages
    ∧ (updateChat now s u).contacts = s.contacts
    ∧ (updateChat now s u).groupMetadata = s.groupMetadata
    ∧ (updateChat now s u).backupChats = s.backupChats
    ∧ (updateChat now s u).backupMessages = s.backupMessages
    ∧ (updateChat now s u).backupContacts = s.backupContacts
    ∧ (updateChat now s u).backupGroupMetadata = s.backupGroupMetadata
    ∧ (updateChat now s u).isProcessingHistory = s.isProcessingHistory
    ∧ (updateChat now s u).preserveDataDuringSync = s.preserveDataDuringSync := by
  unfold updateChat
  cases mget s.chats (objId u) <;> simp

theorem ugm_fields (now : Nat) (s : Store) (u : JsObj) :
    (updateGroupMetadata now s u).heap = s.heap
    ∧ (updateGroupMetadata now s u).nextRef = s.nextRef
    ∧ (updateGroupMetadata now s u).chats = s.chats
    ∧ (updateGroupMetadata now s u).messages = s.messages
    ∧ (updateGroupMetadata now s u).contacts = s.contacts
    ∧ (updateGroupMetadata now s u).backupChats = s.backupChats
    ∧ (updateGroupMetadata now s u).backupMessages = s.backupMessages
    ∧ (updateGroupMetadata now s u).backupContacts = s.backupContacts
    ∧ (updateGroupMetadata now s u).backupGroupMetadata = s.backupGroupMetadata
    ∧ (updateGroupMetadata now s u).isProcessingHistory = s.isProcessingHistory
    ∧ (updateGroupMetadata now s u).preserveDataDuringSync = s.preserveDataDuringSync :=
  ⟨rfl, rfl, rfl, rfl, rfl, rfl, rfl, rfl, rfl, rfl, rfl⟩

theorem pco_heap_nextRef (now : Nat) (cs : List JsObj) : ∀ st : Store,
    (∀ r, r < st.nextRef →
      mget (processChatsOptimized now st cs).heap r = mget st.heap r)
    ∧ st.nextRef ≤ (processChatsOptimized now st cs).nextRef := by
  induction cs with
  | nil => intro st; exact ⟨fun r _ => rfl, Nat.le_refl _⟩
  | cons c rest ih =>
    intro st
    have hstep_heap : ∀ r, r < st.nextRef →
        mget (pcoStep now st c).heap r = mget st.heap r := by
      intro r hr
      unfold pcoStep
      by_cases hc : mhas st.chats (objId c)
      · simp [hc]
      · simp only [hc, Bool.false_eq_true, if_false]
        show mget (mset st.heap st.nextRef _) r = mget st.heap r
        exact mget_mset_ne _ _ _ _ (by omega)
    have hstep_next : st.nextRef ≤ (pcoStep now st c).nextRef := by
      unfold pcoStep
      by_cases hc : mhas st.chats (objId c)
      · simp [hc]
      · simp only [hc, Bool.false_eq_true, if_false]
        show st.nextRef ≤ st.nextRef + 1
        omega
    obtain ⟨ih1, ih2⟩ := ih (pcoStep now st c)
    refine ⟨?_, Nat.le_trans hstep_next ih2⟩
    intro r hr
    rw [show processChatsOptimized now st (c :: rest)
        = processChatsOptimized now (pcoStep now st c) rest from rfl]
    rw [ih1 r (Nat.lt_of_lt_of_le hr hstep_next), hstep_heap r hr]

theorem pco_chats_entries (now : Nat) (cs : List JsObj) :
    ∀ (st : Store) (q : String × Nat),
      q ∈ (processChatsOptimized now st cs).chats →
      q ∈ st.chats ∨ st.nextRef ≤ q.2 := by
  induction cs with
  | nil => intro st q hq; exact Or.inl hq
  | cons c rest ih =>
    intro st q hq
    have hnext : st.nextRef ≤ (pcoStep now st c).nextRef := by
      unfold pcoStep
      by_cases hc : mhas st.chats (objId c)
      · simp [hc]
      · simp only [hc, Bool.false_eq_true, if_false]
        show st.nextRef ≤ st.nextRef + 1
        omega
    rcases ih (pcoStep now st c) q hq with h1 | h1
    · unfold pcoStep at h1
      by_cases hc : mhas st.chats (objId c)
      · rw [if_pos hc] at h1
        exact Or.inl h1
      · rw [if_neg hc] at h1
        rcases mem_mset_cases h1 with h2 | h2
        · exact Or.inl h2
        · right
          rw [h2]
    · exact Or.inr (Nat.le_trans hnext h1)

theorem mergeBase_core (s : Store) (h : HistoryData) :
    (mergeBase s h).heap = s.heap
    ∧ (mergeBase s h).nextRef = s.nextRef
    ∧ (mergeBase s h).groupMetadata = s.groupMetadata
    ∧ (mergeBase s h).isProcessingHistory = s.isProcessingHistory
    ∧ (mergeBase s h).preserveDataDuringSync = s.preserveDataDuringSync
    ∧ (mergeBase s h).backupGroupMetadata = s.backupGroupMetadata := by
  unfold mergeBase
  split <;> exact ⟨rfl, rfl, rfl, rfl, rfl, rfl⟩

theorem pcoStep_flags (now : Nat) (st : Store) (c : JsObj) :
    (pcoStep now st c).isProcessingHistory = st.isProcessingHistory
    ∧ (pcoStep now st c).preserveDataDuringSync = st.preserveDataDuringSync
    ∧ (pcoStep now st c).backupGroupMetadata = st.backupGroupMetadata
    ∧ (pcoStep now st c).groupMetadata = st.groupMetadata := by
  unfold pcoStep
  by_cases hc : mhas st.chats (objId c) <;> simp [hc]

theorem pmo_more_fields (norm : String → String) (now : Nat) (st : Store)
    (ms : List WAMessage) :
    (processMessagesOptimized norm now st ms).heap = st.heap
    ∧ (processMessagesOptimized norm now st ms).nextRef = st.nextRef
    ∧ (processMessagesOptimized norm now st ms).isProcessingHistory = st.isProcessingHistory
    ∧ (processMessagesOptimized norm now st ms).preserveDataDuringSync = st.preserveDataDuringSync
    ∧ (processMessagesOptimized norm now st ms).backupGroupMetadata = st.backupGroupMetadata
    ∧ (processMessagesOptimized norm now st ms).groupMetadata = st.groupMetadata :=
  ⟨foldl_pres_field (pmoStep now) (fun x => x.heap) (fun _ _ => rfl) _ st,
   foldl_pres_field (pmoStep now) (fun x => x.nextRef) (fun _ _ => rfl) _ st,
   foldl_pres_field (pmoStep now) (fun x => x.isProcessingHistory) (fun _ _ => rfl) _ st,
   foldl_pres_field (pmoStep now) (fun x => x.preserveDataDuringSync) (fun _ _ => rfl) _ st,
   foldl_pres_field (pmoStep now) (fun x => x.backupGroupMetadata) (fun _ _ => rfl) _ st,
   foldl_pres_field (pmoStep now) (fun x => x.groupMetadata) (fun _ _ => rfl) _ st⟩

theorem pct_more_fields (norm : String → String) (now : Nat) (st : Store)
    (cs : List JsObj) :
    (processContactsOptimized norm now st cs).heap = st.heap
    ∧ (processContactsOptimized norm now st cs).nextRef = st.nextRef
    ∧ (processContactsOptimized norm now st cs).isProcessingHistory = st.isProcessingHistory
    ∧ (processContactsOptimized norm now st cs).preserveDataDuringSync = st.preserveDataDuringSync
    ∧ (processContactsOptimized norm now st cs).backupGroupMetadata = st.backupGroupMetadata
    ∧ (processContactsOptimized norm now st cs).groupMetadata = st.groupMetadata :=
  ⟨foldl_pres_field (pctStep norm now) (fun x => x.heap) (fun _ _ => rfl) _ st,
   foldl_pres_field (pctStep norm now) (fun x => x.nextRef) (fun _ _ => rfl) _ st,
   foldl_pres_field (pctStep norm now) (fun x => x.isProcessingHistory) (fun _ _ => rfl) _ st,
   foldl_pres_field (pctStep norm now) (fun x => x.preserveDataDuringSync) (fun _ _ => rfl) _ st,
   foldl_pres_field (pctStep norm now) (fun x => x.backupGroupMetadata) (fun _ _ => rfl) _ st,
   foldl_pres_field (pctStep norm now) (fun x => x.groupMetadata) (fun _ _ => rfl) _ st⟩

theorem pco_more_fields (now : Nat) (st : Store) (cs : List JsObj) :
    (processChatsOptimized now st cs).isProcessingHistory = st.isProcessingHistory
    ∧ (processChatsOptimized now st cs).preserveDataDuringSync = st.preserveDataDuringSync
    ∧ (processChatsOptimized now st cs).backupGroupMetadata = st.backupGroupMetadata
    ∧ (processChatsOptimized now st cs).groupMetadata = st.groupMetadata :=
  ⟨foldl_pres_field (pcoStep now) (fun x => x.isProcessingHistory)
      (fun st c => (pcoStep_flags now st c).1) _ st,
   foldl_pres_field (pcoStep now) (fun x => x.preserveDataDuringSync)
      (fun st c => (pcoStep_flags now st c).2.1) _ st,
   foldl_pres_field (pcoStep now) (fun x => x.backupGroupMetadata)
      (fun st c => (pcoStep_flags now st c).2.2.1) _ st,
   foldl_pres_field (pcoStep now) (fun x => x.groupMetadata)
      (fun st c => (pcoStep_flags now st c).2.2.2) _ st⟩

theorem merge_rest (norm : String → String) (now : Nat)
    (s : Store) (h : HistoryData) :
    (historyMergePhase norm now s h).heap
        = (processChatsOptimized now (mergeBase s h) h.chats).heap
    ∧ (historyMergePhase norm now s h).nextRef
        = (processChatsOptimized now (mergeBase s h) h.chats).nextRef
    ∧ (historyMergePhase norm now s h).isProcessingHistory = s.isProcessingHistory
    ∧ (historyMergePhase norm now s h).preserveDataDuringSync = s.preserveDataDuringSync
    ∧ (historyMergePhase norm now s h).backupGroupMetadata = s.backupGroupMetadata
    ∧ (historyMergePhase norm now s h).groupMetadata
        = (processChatsOptimized now (mergeBase s h) h.chats).groupMetadata := by
  rw [historyMergePhase_eq]
  refine ⟨?_, ?_, ?_, ?_, ?_, ?_⟩
  · show (processMessagesOptimized norm now _ h.messages).heap = _
    rw [(pmo_more_fields norm now _ _).1, (pct_more_fields norm now _ _).1]
  · show (processMessagesOptimized norm now _ h.messages).nextRef = _
    rw [(pmo_more_fields norm now _ _).2.1, (pct_more_fields norm now _ _).2.1]
  · show (processMessagesOptimized norm now _ h.messages).isProcessingHistory = _
    rw [(pmo_more_fields norm now _ _).2.2.1, (pct_more_fields norm now _ _).2.2.1,
      (pco_more_fields now _ _).1, (mergeBase_core s h).2.2.2.1]
  · show (processMessagesOptimized norm now _ h.messages).preserveDataDuringSync = _
    rw [(pmo_more_fields norm now _ _).2.2.2.1, (pct_more_fields norm now _ _).2.2.2.1,
      (pco_more_fields now _ _).2.1, (mergeBase_core s h).2.2.2.2.1]
  · show (processMessagesOptimized norm now _ h.messages).backupGroupMetadata = _
    rw [(pmo_more_fields norm now _ _).2.2.2.2.1, (pct_more_fields norm now _ _).2.2.2.2.1,
      (pco_more_fields now _ _).2.2.1, (mergeBase_core s h).2.2.2.2.2]
  · show (processMessagesOptimized norm now _ h.messages).groupMetadata = _
    rw [(pmo_more_fields norm now _ _).2.2.2.2.2, (pct_more_fields norm now _ _).2.2.2.2.2]

theorem merge_heap_pres (norm : String → String) (now : Nat)
    (s : Store) (h : HistoryData) (r : Nat) (hr : r < s.nextRef) :
    mget (historyMergePhase norm now s h).heap r = mget s.heap r := by
  rw [(merge_rest norm now s h).1]
  rw [(pco_heap_nextRef now h.chats (mergeBase s h)).1 r
    (by rw [(mergeBase_core s h).2.1]; exact hr)]
  rw [(mergeBase_core s h).1]

theorem merge_nextRef_mono (norm : String → String) (now : Nat)
    (s : Store) (h : HistoryData) :
    s.nextRef ≤ (historyMergePhase norm now s h).nextRef := by
  rw [(merge_rest norm now s h).2.1]
  have := (pco_heap_nextRef now h.chats (mergeBase s h)).2
  rw [(mergeBase_core s h).2.1] at this
  exact this

theorem merge_chats_entries (norm : String → String) (now : Nat)
    (s : Store) (h : HistoryData) (q : String × Nat)
    (hq : q ∈ (historyMergePhase norm now s h).chats) :
    q ∈ s.chats ∨ s.nextRef ≤ q.2 := by
  rw [merge_chats] at hq
  rcases pco_chats_entries now h.chats (mergeBase s h) q hq with h1 | h1
  · unfold mergeBase at h1
    by_cases hc : (h.isLatest && (decide (h.chats.length > 10)
        || decide (h.messages.length > 100))) = true
    · rw [if_pos hc] at h1
      simp at h1
    · rw [if_neg hc] at h1
      exact Or.inl h1
  · right
    rw [(mergeBase_core s h).2.1] at h1
    exact h1

/-- The state of the sync window after `createBackup` on `s0`: the backup
slots hold `s0`'s maps, the chat objects captured by the backup are
untouched in the heap, and live chat entries outside the backup never
alias a backed-up chat object. -/
structure BackupInv (s0 s : Store) : Prop where
  bchats : s.backupChats = s0.chats
  bmsgs : s.backupMessages = s0.messages
  bcontacts : s.backupContacts = s0.contacts
  bgm : s.backupGroupMetadata = s0.groupMetadata
  heapPres : ∀ p ∈ s0.chats, heapGet s p.2 = heapGet s0 p.2
  refsBound : ∀ p ∈ s0.chats, p.2 < s.nextRef
  freshSep : ∀ q ∈ s.chats, q.1 ∉ mkeys s0.chats → ∀ p ∈ s0.chats, q.2 ≠ p.2
  syncing : s.isProcessingHistory = true
  preserve : s.preserveDataDuringSync = true

theorem backupInv_init (s0 : Store)
    (hsync : s0.isProcessingHistory = true)
    (hpres : s0.preserveDataDuringSync = true)
    (hrefs : ∀ p ∈ s0.chats, p.2 < s0.nextRef) :
    BackupInv s0 (createBackup s0) := by
  have hcb : createBackup s0 = { s0 with
      backupChats := s0.chats
      backupMessages := s0.messages
      backupContacts := s0.contacts
      backupGroupMetadata := s0.groupMetadata } := by
    unfold createBackup
    rw [hpres]
    rfl
  rw [hcb]
  exact {
    bchats := rfl
    bmsgs := rfl
    bcontacts := rfl
    bgm := rfl
    heapPres := fun p _ => rfl
    refsBound := fun p hp => hrefs p hp
    freshSep := fun q hq hq1 p hp =>
      absurd (List.mem_map_of_mem Prod.fst hq) hq1
    syncing := hsync
    preserve := hpres }

theorem backupInv_step (norm : String → String) (s0 s : Store) (op : MutOp)
    (hinv : BackupInv s0 s) (hsafe : safeOp (mkeys s0.chats) op = true) :
    BackupInv s0 (applyMutOp norm s op) := by
  cases op with
  | addMsg jid m now =>
      obtain ⟨h1, h2, h3, h4, h5, h6, h7, h8, h9, h10, h11⟩ :=
        addMessage_fields norm now s jid m
      show BackupInv s0 (addMessage norm now s jid m)
      exact {
        bchats := h6.trans hinv.bchats
        bmsgs := h7.trans hinv.bmsgs
        bcontacts := h8.trans hinv.bcontacts
        bgm := h9.trans hinv.bgm
        heapPres := fun p hp => by
          show (mget (addMessage norm now s jid m).heap p.2).getD [] = _
          rw [h1]
          exact hinv.heapPres p hp
        refsBound := fun p hp => by rw [h2]; exact hinv.refsBound p hp
        freshSep := fun q hq => by rw [h3] at hq; exact hinv.freshSep q hq
        syncing := h10.trans hinv.syncing
        preserve := h11.trans hinv.preserve }
  | contactsUpsert cs now =>
      obtain ⟨h1, h2, h3, h4, h5, h6, h7, h8, h9, h10, h11⟩ :=
        pcu_fields norm now cs s
      show BackupInv s0 (processContactsUpsert norm now s cs)
      exact {
        bchats := h6.trans hinv.bchats
        bmsgs := h7.trans hinv.bmsgs
        bcontacts := h8.trans hinv.bcontacts
        bgm := h9.trans hinv.bgm
        heapPres := fun p hp => by
          show (mget (processContactsUpsert norm now s cs).heap p.2).getD [] = _
          rw [h1]
          exact hinv.heapPres p hp
        refsBound := fun p hp => by rw [h2]; exact hinv.refsBound p hp
        freshSep := fun q hq => by rw [h3] at hq; exact hinv.freshSep q hq
        syncing := h10.trans hinv.syncing
        preserve := h11.trans hinv.preserve }
  | groupMetaUpdate u now =>
      obtain ⟨h1, h2, h3, h4, h5, h6, h7, h8, h9, h10, h11⟩ := ugm_fields now s u
      show BackupInv s0 (updateGroupMetadata now s u)
      exact {
        bchats := h6.trans hinv.bchats
        bmsgs := h7.trans hinv.bmsgs
        bcontacts := h8.trans hinv.bcontacts
        bgm := h9.trans hinv.bgm
        heapPres := fun p hp => by
          show (mget (updateGroupMetadata now s u).heap p.2).getD [] = _
          rw [h1]
          exact hinv.heapPres p hp
        refsBound := fun p hp => by rw [h2]; exact hinv.refsBound p hp
        freshSep := fun q hq => by rw [h3] at hq; exact hinv.freshSep q hq
        syncing := h10.trans hinv.syncing
        preserve := h11.trans hinv.preserve }
  | chatUpsert c now =>
      have hsafe' : objId c ∉ mkeys s0.chats := by
        simp only [safeOp, Bool.not_eq_true'] at hsafe
        intro hmem
        rw [List.contains_eq_any_beq] at hsafe
        simp [List.any_eq_false] at hsafe
        exact hsafe (objId c) hmem rfl
      show BackupInv s0 (upsertChat now s c)
      cases hg : mget s.chats (objId c) with
      | some r =>
          have hmem : (objId c, r) ∈ s.chats := mget_mem _ _ _ hg
          have hrne : ∀ p ∈ s0.chats, r ≠ p.2 :=
            hinv.freshSep (objId c, r) hmem hsafe'
          have hup : upsertChat now s c = { s with
              heap := mset s.heap r (objAssign (heapGet s r)
                (mset c "lastUpdated" (JVal.num now))) } := by
            unfold upsertChat
            rw [hg]
          rw [hup]
          exact {
            bchats := hinv.bchats
            bmsgs := hinv.bmsgs
            bcontacts := hinv.bcontacts
            bgm := hinv.bgm
            heapPres := fun p hp => by
              show (mget (mset s.heap r _) p.2).getD [] = _
              rw [mget_mset_ne _ _ _ _ (hrne p hp)]
              exact hinv.heapPres p hp
            refsBound := hinv.refsBound
            freshSep := hinv.freshSep
            syncing := hinv.syncing
            preserve := hinv.preserve }
      | none =>
          have hup : upsertChat now s c = { s with
              heap := mset s.heap s.nextRef
                (mset (mset c "createdAt" (JVal.num now)) "lastUpdated" (JVal.num now))
              nextRef := s.nextRef + 1
              chats := mset s.chats (objId c) s.nextRef
              statsTotalChats := s.statsTotalChats + 1 } := by
            unfold upsertChat
            rw [hg]
          rw [hup]
          exact {
            bchats := hinv.bchats
            bmsgs := hinv.bmsgs
            bcontacts := hinv.bcontacts
            bgm := hinv.bgm
            heapPres := fun p hp => by
              show (mget (mset s.heap s.nextRef _) p.2).getD [] = _
              rw [mget_mset_ne _ _ _ _ (Nat.ne_of_gt (hinv.refsBound p hp))]
              exact hinv.heapPres p hp
            refsBound := fun p hp =>
              Nat.lt_succ_of_lt (hinv.refsBound p hp)
            freshSep := fun q hq hq1 p hp => by
              rcases mem_mset_cases hq with h1 | h1
              · exact hinv.freshSep q h1 hq1 p hp
              · rw [h1]
                exact Nat.ne_of_gt (hinv.refsBound p hp)
            syncing := hinv.syncing
            preserve := hinv.preserve }
  | chatUpdate u now =>
      have hsafe' : objId u ∉ mkeys s0.chats := by
        simp only [safeOp, Bool.not_eq_true'] at hsafe
        intro hmem
        rw [List.contains_eq_any_beq] at hsafe
        simp [List.any_eq_false] at hsafe
        exact hsafe (objId u) hmem rfl
      show BackupInv s0 (updateChat now s u)
      cases hg : mget s.chats (objId u) with
      | none =>
          have hup : updateChat now s u = s := by
            unfold updateChat
            rw [hg]
          rw [hup]
          exact hinv
      | some r =>
          have hmem : (objId u, r) ∈ s.chats := mget_mem _ _ _ hg
          have hrne : ∀ p ∈ s0.chats, r ≠ p.2 :=
            hinv.freshSep (objId u, r) hmem hsafe'
          have hup : updateChat now s u = { s with
              heap := mset s.heap r (objAssign (heapGet s r)
                (mset (if jsPos (mget u "unreadCount")
                       then mset u "unreadCount"
                         (JVal.num (jsNumOr0 (mget (heapGet s r) "unreadCount")
                           + jsNumOr0 (mget u "unreadCount")))
                       else u) "lastUpdated" (JVal.num now))) } := by
            unfold updateChat
            rw [hg]
          rw [hup]
          exact {
            bchats := hinv.bchats
            bmsgs := hinv.bmsgs
            bcontacts := hinv.bcontacts
            bgm := hinv.bgm
            heapPres := fun p hp => by
              show (mget (mset s.heap r _) p.2).getD [] = _
              rw [mget_mset_ne _ _ _ _ (hrne p hp)]
              exact hinv.heapPres p hp
            refsBound := hinv.refsBound
            freshSep := hinv.freshSep
            syncing := hinv.syncing
            preserve := hinv.preserve }
  | historyBatch hb now =>
      show BackupInv s0 (processHistorySet norm now s hb)
      by_cases h6 : hb.syncType = 6
      · have hphs : processHistorySet norm now s hb = s := by
          unfold processHistorySet
          rw [if_pos h6]
        rw [hphs]
        exact hinv
      · have hsafe2 : hb.isLatest = false ∧ hb.progress < 100 := by
          simp only [safeOp, Bool.or_eq_true, Bool.and_eq_true, beq_iff_eq,
            Bool.not_eq_true', decide_eq_true_eq] at hsafe
          rcases hsafe with h1 | h1
          · exact absurd h1 h6
          · exact h1
        have hstart : historyStartPhase now s = s := by
          unfold historyStartPhase
          rw [hinv.syncing]
          rfl
        have hfl : ¬ ((hb.isLatest || decide (hb.progress ≥ 100)) = true) := by
          rw [hsafe2.1]
          simp only [Bool.false_or, decide_eq_true_eq]
          omega
        have hphs : processHistorySet norm now s hb
            = historyMergePhase norm now s hb := by
          simp only [processHistorySet]
          rw [if_neg h6, hstart, if_neg hfl]
        rw [hphs]
        exact {
          bchats := (merge_backups norm now s hb).1.trans hinv.bchats
          bmsgs := (merge_backups norm now s hb).2.1.trans hinv.bmsgs
          bcontacts := (merge_backups norm now s hb).2.2.trans hinv.bcontacts
          bgm := (merge_rest norm now s hb).2.2.2.2.1.trans hinv.bgm
          heapPres := fun p hp => by
            show (mget (historyMergePhase norm now s hb).heap p.2).getD [] = _
            rw [merge_heap_pres norm now s hb p.2 (hinv.refsBound p hp)]
            exact hinv.heapPres p hp
          refsBound := fun p hp =>
            Nat.lt_of_lt_of_le (hinv.refsBound p hp)
              (merge_nextRef_mono norm now s hb)
          freshSep := fun q hq hq1 p hp => by
            rcases merge_chats_entries norm now s hb q hq with h1 | h1
            · exact hinv.freshSep q h1 hq1 p hp
            · have := hinv.refsBound p hp
              omega
          syncing := (merge_rest norm now s hb).2.2.1.trans hinv.syncing
          preserve := (merge_rest norm now s hb).2.2.2.1.trans hinv.preserve }

theorem backupInv_ops (norm : String → String) (s0 : Store) :
    ∀ (ops : List MutOp) (s : Store), BackupInv s0 s →
      (∀ op ∈ ops, safeOp (mkeys s0.chats) op = true) →
      BackupInv s0 (applyMutOps norm s ops)
  | [], _, hinv, _ => hinv
  | op :: rest, s, hinv, hsafe =>
      backupInv_ops norm s0 rest _
        (backupInv_step norm s0 s op hinv (hsafe op (List.mem_cons_self _ _)))
        (fun o ho => hsafe o (List.mem_cons_of_mem _ ho))

theorem restoreFromBackup_eq (sn : Store)
    (hp : sn.preserveDataDuringSync = true) (hb : hasBackupData sn = true) :
    (restoreFromBackup sn).chats = sn.backupChats
    ∧ (restoreFromBackup sn).messages = sn.backupMessages
    ∧ (restoreFromBackup sn).contacts = sn.backupContacts
    ∧ (restoreFromBackup sn).groupMetadata = sn.backupGroupMetadata
    ∧ (restoreFromBackup sn).heap = sn.heap := by
  unfold restoreFromBackup
  rw [hp, hb]
  exact ⟨rfl, rfl, rfl, rfl, rfl⟩

/-- C3 (amended): inside a sync window opened by `createBackup` on a
store `s0` that is syncing with data preservation on, holds some chats,
messages or contacts, and whose chat references are live, any sequence of
mutations that never merges into a backup-captured chat id and whose
history batches stay strictly inside the window (on-demand, or neither
latest nor complete) leaves `restoreFromBackup` able to reproduce `s0`'s
observable chats, messages, contacts and group metadata exactly. -/
theorem backup_restore_roundtrip
    (norm : String → String) (s0 : Store) (ops : List MutOp)
    (hsync : s0.isProcessingHistory = true)
    (hpres : s0.preserveDataDuringSync = true)
    (hdata : s0.chats ≠ [] ∨ s0.messages ≠ [] ∨ s0.contacts ≠ [])
    (hrefs : ∀ p ∈ s0.chats, p.2 < s0.nextRef)
    (hsafe : ∀ op ∈ ops, safeOp (mkeys s0.chats) op = true) :
    chatsView (restoreFromBackup (applyMutOps norm (createBackup s0) ops))
        = chatsView s0
    ∧ (restoreFromBackup (applyMutOps norm (createBackup s0) ops)).messages
        = s0.messages
    ∧ (restoreFromBackup (applyMutOps norm (createBackup s0) ops)).contacts
        = s0.contacts
    ∧ (restoreFromBackup (applyMutOps norm (createBackup s0) ops)).groupMetadata
        = s0.groupMetadata := by
  have hinv : BackupInv s0 (applyMutOps norm (createBackup s0) ops) :=
    backupInv_ops norm s0 ops (createBackup s0)
      (backupInv_init s0 hsync hpres hrefs) hsafe
  have hbd : hasBackupData (applyMutOps norm (createBackup s0) ops) = true := by
    unfold hasBackupData
    rw [hinv.bchats, hinv.bmsgs, hinv.bcontacts]
    rcases hdata with h | h | h
    · cases hc : s0.chats with
      | nil => exact absurd hc h
      | cons a t => simp [hc, List.isEmpty]
    · cases hc : s0.messages with
      | nil => exact absurd hc h
      | cons a t => simp [hc, List.isEmpty]
    · cases hc : s0.contacts with
      | nil => exact absurd hc h
      | cons a t => simp [hc, List.isEmpty]
  have hre := restoreFromBackup_eq (applyMutOps norm (createBackup s0) ops)
    hinv.preserve hbd
  refine ⟨?_, hre.2.1.trans hinv.bmsgs, hre.2.2.1.trans hinv.bcontacts,
    hre.2.2.2.1.trans hinv.bgm⟩
  unfold chatsView
  rw [hre.1, hinv.bchats]
  apply List.map_congr_left
  intro p hp
  have hh : heapGet (restoreFromBackup (applyMutOps norm (createBackup s0) ops)) p.2
      = heapGet (applyMutOps norm (createBackup s0) ops) p.2 := by
    unfold heapGet
    rw [hre.2.2.2.2]
  rw [hh, hinv.heapPres p hp]

def c3msg : WAMessage :=
  { key := { remoteJid := "z", id := "zm" }, messageTimestamp := some 6,
    fromMe := false, protocolHistorySync := false, payload := "zz" }

def c3hist : HistoryData :=
  { chats := [[("id", JVal.str "h")]]
    contacts := []
    messages := []
    isLatest := false
    syncType := 0
    progress := 50 }

def c3ops : List MutOp :=
  [MutOp.addMsg "z" c3msg 7,
   MutOp.chatUpsert [("id", JVal.str "b"), ("name", JVal.str "n")] 8,
   MutOp.chatUpdate [("id", JVal.str "b"), ("unreadCount", JVal.num 2)] 9,
   MutOp.contactsUpsert [[("id", JVal.str "c")]] 10,
   MutOp.historyBatch c3hist 11]

/-- Witness for the amended C3 theorem at a concrete sync window: a
fresh-chat upsert, a merge into the fresh chat, a message, a contact and a
non-final history batch all round-trip. -/
theorem backup_restore_roundtrip_check :
    (c3pre.isProcessingHistory = true
      ∧ c3pre.preserveDataDuringSync = true
      ∧ (c3pre.chats ≠ [] ∨ c3pre.messages ≠ [] ∨ c3pre.contacts ≠ [])
      ∧ (∀ p ∈ c3pre.chats, p.2 < c3pre.nextRef)
      ∧ (∀ op ∈ c3ops, safeOp (mkeys c3pre.chats) op = true))
    ∧ chatsView (restoreFromBackup (applyMutOps id (createBackup c3pre) c3ops))
        = chatsView c3pre :=
  ⟨⟨by decide, by decide, Or.inl (by decide), by decide, by decide⟩,
    (backup_restore_roundtrip id c3pre c3ops (by decide) (by decide)
      (Or.inl (by decide)) (by decide) (by decide)).1⟩

/-! ### The file system model (claims C5 and C8)

A file system is a mapping from paths to string contents; `fs.stat` size
is content length, absence is absence of the binding.  Each fallible
native call of `writeToFileInternal` gets an injected-failure flag so the
theorem quantifies over every failure point of the real call. -/

def FS : Type := List (String × String)

instance : DecidableEq FS := by
  unfold FS
  exact inferInstance

/-- Injected outcomes for the fallible steps of `writeToFileInternal`
(lines 321-346): `fs.writeFile` on the temp path (leaving the partial
content `torn` behind when it throws), `fs.stat`, `fs.rename`, and the
best-effort `fs.unlink` of the cleanup path. -/
structure FailSpec where
  writeFail : Bool
  torn : String
  statFail : Bool
  renameFail : Bool
  unlinkFail : Bool
deriving DecidableEq, Repr

structure WriteResult where
  fs : FS
  ok : Bool
deriving DecidableEq

/-- `` `${file}.tmp.${Date.now()}` `` (line 322). -/
def tempName (file : String) (now : Nat) : String :=
  file ++ ".tmp." ++ toString now

/-- Cleanup path of `writeToFileInternal` (lines 337-344): try to unlink
the temp file, ignore unlink errors, and report the original error. -/
def wfiCleanup (f : FailSpec) (fs1 : FS) (tempFile : String) : WriteResult :=
  { fs := if f.unlinkFail then fs1 else mdelete fs1 tempFile, ok := false }

/-- `writeToFileInternal(file, data)` (lines 321-346): write the document
to `` `${file}.tmp.${now}` ``, `stat` it and fail when its size is below
10 bytes, else rename it over `file`; on any error unlink the temp file
(best-effort) and rethrow. -/
def writeToFileInternal (f : FailSpec) (fs0 : FS) (file doc : String)
    (now : Nat) : WriteResult :=
  let tempFile := tempName file now
  if f.writeFail then
    wfiCleanup f (mset fs0 tempFile f.torn) tempFile
  else
    let fs1 := mset fs0 tempFile doc
    if f.statFail then
      wfiCleanup f fs1 tempFile
    else if doc.length < 10 then
      wfiCleanup f fs1 tempFile
    else if f.renameFail then
      wfiCleanup f fs1 tempFile
    else
      { fs := mset (mdelete fs1 tempFile) file doc, ok := true }

theorem mdelete_mset_fresh {κ α : Type} [DecidableEq κ]
    (m : List (κ × α)) (k : κ) (v : α) (h : mhas m k = false) :
    mdelete (mset m k v) k = m := by
  induction m with
  | nil => simp [mset, mdelete]
  | cons p t ih =>
      obtain ⟨a, b⟩ := p
      by_cases hk : a = k
      · exfalso
        simp only [mhas, mget, if_pos hk, Option.isSome_some] at h
        exact Bool.noConfusion h
      · have ht : mhas t k = false := by
          simp only [mhas, mget, if_neg hk] at h
          exact h
        show mdelete (if a = k then (k, v) :: t else (a, b) :: mset t k v) k
            = (a, b) :: t
        rw [if_neg hk]
        show (if a = k then mset t k v else (a, b) :: mdelete (mset t k v) k)
            = (a, b) :: t
        rw [if_neg hk, ih ht]

theorem tempName_ne (file : String) (now : Nat) : tempName file now ≠ file := by
  intro h
  have hl := congrArg String.length h
  simp only [tempName, String.length_append] at hl
  have h5 : (".tmp." : String).length = 5 := by decide
  rw [h5] at hl
  omega

theorem wfi_fail_char (f : FailSpec) (fs0 : FS) (file doc : String) (now : Nat)
    (h : f.writeFail = true ∨ f.statFail = true ∨ doc.length < 10
      ∨ f.renameFail = true) :
    ∃ c, writeToFileInternal f fs0 file doc now
      = wfiCleanup f (mset fs0 (tempName file now) c) (tempName file now) := by
  by_cases hw : f.writeFail = true
  · exact ⟨f.torn, by simp [writeToFileInternal, hw]⟩
  · have hw' : f.writeFail = false := by
      cases hfw : f.writeFail
      · rfl
      · exact absurd hfw hw
    refine ⟨doc, ?_⟩
    by_cases hs : f.statFail = true
    · simp [writeToFileInternal, hw', hs]
    · have hs' : f.statFail = false := by
        cases hfs : f.statFail
        · rfl
        · exact absurd hfs hs
      by_cases hl : doc.length < 10
      · simp [writeToFileInternal, hw', hs', hl]
      · have hr : f.renameFail = true := by
          rcases h with h1 | h1 | h1 | h1
          · exact absurd h1 hw
          · exact absurd h1 hs
          · exact absurd h1 hl
          · exact h1
        simp [writeToFileInternal, hw', hs', hl, hr]

theorem wfi_ok_char (f : FailSpec) (fs0 : FS) (file doc : String) (now : Nat)
    (hfresh : mhas fs0 (tempName file now) = false)
    (hw : f.writeFail = false) (hs : f.statFail = false)
    (hr : f.renameFail = false) (hl : ¬ doc.length < 10) :
    writeToFileInternal f fs0 file doc now
      = { fs := mset fs0 file doc, ok := true } := by
  simp [writeToFileInternal, hw, hs, hr, hl,
    mdelete_mset_fresh fs0 (tempName file now) doc hfresh]

/-- C5: `writeToFileInternal` is atomic and failure-safe: the temp path
differs from the target; on any failure the target's bytes are exactly
its previous bytes, and the temp file is gone whenever the best-effort
unlink worked, with the error propagated (`ok = false`); success yields
exactly the old file system with the document at the target, a ≥ 10-byte
document, and no temp left; and success happens iff no step failed and
the document meets the size floor. -/
theorem writeToFileInternal_atomic (f : FailSpec) (fs0 : FS)
    (file doc : String) (now : Nat)
    (hfresh : mhas fs0 (tempName file now) = false) :
    tempName file now ≠ file
    ∧ ((writeToFileInternal f fs0 file doc now).ok = false →
        mget (writeToFileInternal f fs0 file doc now).fs file = mget fs0 file)
    ∧ ((writeToFileInternal f fs0 file doc now).ok = false →
        f.unlinkFail = false →
        (writeToFileInternal f fs0 file doc now).fs = fs0)
    ∧ ((writeToFileInternal f fs0 file doc now).ok = true →
        (writeToFileInternal f fs0 file doc now).fs = mset fs0 file doc
        ∧ 10 ≤ doc.length
        ∧ mhas (writeToFileInternal f fs0 file doc now).fs
            (tempName file now) = false)
    ∧ ((writeToFileInternal f fs0 file doc now).ok = true ↔
        f.writeFail = false ∧ f.statFail = false ∧ f.renameFail = false
        ∧ 10 ≤ doc.length) := by
  refine ⟨tempName_ne file now, ?_, ?_, ?_, ?_⟩
  all_goals
    by_cases hfl : f.writeFail = true ∨ f.statFail = true ∨ doc.length < 10
      ∨ f.renameFail = true
  -- goal 2, failure region
  · obtain ⟨c, hW⟩ := wfi_fail_char f fs0 file doc now hfl
    rw [hW]
    intro _
    by_cases hu : f.unlinkFail = true
    · simp only [wfiCleanup, hu, if_pos]
      exact mget_mset_ne fs0 (tempName file now) file c (tempName_ne file now)
    · simp only [wfiCleanup]
      rw [if_neg hu, mdelete_mset_fresh fs0 (tempName file now) c hfresh]
  -- goal 2, success region
  · push_neg at hfl
    obtain ⟨hw, hs, hl, hr⟩ := hfl
    have hw' : f.writeFail = false := by
      cases hfw : f.writeFail
      · rfl
      · exact absurd hfw hw
    have hs' : f.statFail = false := by
      cases hfs : f.statFail
      · rfl
      · exact absurd hfs hs
    have hr' : f.renameFail = false := by
      cases hfr : f.renameFail
      · rfl
      · exact absurd hfr hr
    rw [wfi_ok_char f fs0 file doc now hfresh hw' hs' hr' (by omega)]
    intro h
    exact absurd h (by simp)
  -- goal 3, failure region
  · obtain ⟨c, hW⟩ := wfi_fail_char f fs0 file doc now hfl
    rw [hW]
    intro _ hu
    simp only [wfiCleanup]
    rw [if_neg (by rw [hu]; exact Bool.false_ne_true),
      mdelete_mset_fresh fs0 (tempName file now) c hfresh]
  -- goal 3, success region
  · push_neg at hfl
    obtain ⟨hw, hs, hl, hr⟩ := hfl
    have hw' : f.writeFail = false := by
      cases hfw : f.writeFail
      · rfl
      · exact absurd hfw hw
    have hs' : f.statFail = false := by
      cases hfs : f.statFail
      · rfl
      · exact absurd hfs hs
    have hr' : f.renameFail = false := by
      cases hfr : f.renameFail
      · rfl
      · exact absurd hfr hr
    rw [wfi_ok_char f fs0 file doc now hfresh hw' hs' hr' (by omega)]
    intro h
    exact absurd h (by simp)
  -- goal 4, failure region
  · obtain ⟨c, hW⟩ := wfi_fail_char f fs0 file doc now hfl
    rw [hW]
    intro h
    exact absurd h (by simp [wfiCleanup])
  -- goal 4, success region
  · push_neg at hfl
    obtain ⟨hw, hs, hl, hr⟩ := hfl
    have hw' : f.writeFail = false := by
      cases hfw : f.writeFail
      · rfl
      · exact absurd hfw hw
    have hs' : f.statFail = false := by
      cases hfs : f.statFail
      · rfl
      · exact absurd hfs hs
    have hr' : f.renameFail = false := by
      cases hfr : f.renameFail
      · rfl
      · exact absurd hfr hr
    rw [wfi_ok_char f fs0 file doc now hfresh hw' hs' hr' (by omega)]
    intro _
    refine ⟨rfl, by omega, ?_⟩
    show (mget (mset fs0 file doc) (tempName file now)).isSome = false
    rw [mget_mset_ne fs0 file (tempName file now) doc
      (Ne.symm (tempName_ne file now))]
    exact hfresh
  -- goal 5, failure region
  · obtain ⟨c, hW⟩ := wfi_fail_char f fs0 file doc now hfl
    rw [hW]
    constructor
    · intro h
      exact absurd h (by simp [wfiCleanup])
    · rintro ⟨h1, h2, h3, h4⟩
      rcases hfl with h5 | h5 | h5 | h5
      · rw [h1] at h5
        exact absurd h5 Bool.false_ne_true
      · rw [h2] at h5
        exact absurd h5 Bool.false_ne_true
      · omega
      · rw [h3] at h5
        exact absurd h5 Bool.false_ne_true
  -- goal 5, success region
  · push_neg at hfl
    obtain ⟨hw, hs, hl, hr⟩ := hfl
    have hw' : f.writeFail = false := by
      cases hfw : f.writeFail
      · rfl
      · exact absurd hfw hw
    have hs' : f.statFail = false := by
      cases hfs : f.statFail
      · rfl
      · exact absurd hfs hs
    have hr' : f.renameFail = false := by
      cases hfr : f.renameFail
      · rfl
      · exact absurd hfr hr
    rw [wfi_ok_char f fs0 file doc now hfresh hw' hs' hr' (by omega)]
    constructor
    · intro _
      exact ⟨hw', hs', hr', by omega⟩
    · intro _
      rfl

def c5fs : FS := [("store.json", "0123456789abc")]

def c5good : FailSpec :=
  { writeFail := false, torn := "", statFail := false, renameFail := false,
    unlinkFail := false }

def c5bad : FailSpec :=
  { writeFail := true, torn := "ab", statFail := false, renameFail := false,
    unlinkFail := false }

/-- Witness for C5 at a concrete file system: a clean write lands the new
document at the target, and a failing `fs.writeFile` leaves the previous
content untouched and the file system exactly as before. -/
theorem writeToFileInternal_atomic_check :
    mget (writeToFileInternal c5good c5fs "store.json" "0123456789" 3).fs
        "store.json" = some "0123456789"
    ∧ (writeToFileInternal c5bad c5fs "store.json" "0123456789" 3).fs = c5fs :=
  ⟨by
    rw [((writeToFileInternal_atomic c5good c5fs "store.json" "0123456789" 3
        (by decide)).2.2.2.1 (by decide)).1]
    decide,
   (writeToFileInternal_atomic c5bad c5fs "store.json" "0123456789" 3
        (by decide)).2.2.1 (by decide) (by decide)⟩

/-! ### The write serializer (claim C6)

`writeToFile` (lines 276-318) guards snapshot writes with the
`isWriting` flag and the `pendingWrites` set: a call made while a write
is in flight only records its target; the `finally` block clears the
flag and schedules (`setImmediate`) exactly the first pending target, if
any, as a fresh `writeToFile` call.  The scheduler state is the flag,
the pending set (insertion-ordered, deduplicated, as a JS `Set`), the
in-flight write and the scheduled-but-not-yet-run calls. -/

structure WState where
  isWriting : Bool
  pending : List String
  inFlight : List String
  tasks : List String
deriving DecidableEq, Repr

/-- JS `Set.add`: append unless already present. -/
def setAdd (l : List String) (f : String) : List String :=
  if l.contains f then l else l ++ [f]

/-- The synchronous prefix of a `writeToFile(file)` call (lines 277-290):
while a write is in flight the target is only added to `pendingWrites`;
otherwise, with valid data, the flag is set and the write is issued. -/
def wRequest (valid : Bool) (s : WState) (f : String) : WState :=
  if s.isWriting then { s with pending := setAdd s.pending f }
  else if valid then { s with isWriting := true, inFlight := s.inFlight ++ [f] }
  else s

/-- The `finally` block of the in-flight write (lines 307-317): clear the
flag, and schedule exactly the first pending target (if any) via
`setImmediate`. -/
def wComplete (s : WState) : WState :=
  match s.pending with
  | [] => { s with isWriting := false, inFlight := [] }
  | p :: rest =>
      { s with
        isWriting := false
        inFlight := []
        pending := rest
        tasks := s.tasks ++ [p] }

def wInit : WState :=
  { isWriting := false, pending := [], inFlight := [], tasks := [] }

/-- One scheduler transition: a new `writeToFile` call, completion of the
in-flight write, or the event loop running a `setImmediate` task. -/
inductive WStep : WState → WState → Prop where
  | request (valid : Bool) (f : String) (s : WState) :
      WStep s (wRequest valid s f)
  | complete (s : WState) (h : s.inFlight ≠ []) : WStep s (wComplete s)
  | runTask (valid : Bool) (f : String) (s : WState) (h : f ∈ s.tasks) :
      WStep s (wRequest valid { s with tasks := s.tasks.erase f } f)

inductive WReachable : WState → Prop where
  | init : WReachable wInit
  | step {s t : WState} : WReachable s → WStep s t → WReachable t

/-- The serializer invariant: at most one write in flight, the flag
tracks it exactly, and the pending set is duplicate-free. -/
def WInv (s : WState) : Prop :=
  s.inFlight.length ≤ 1 ∧ (s.isWriting = true ↔ s.inFlight ≠ [])
    ∧ s.pending.Nodup

theorem contains_iff_mem_str (l : List String) (f : String) :
    l.contains f = true ↔ f ∈ l := by
  show l.elem f = true ↔ f ∈ l
  exact List.elem_iff

theorem setAdd_nodup (l : List String) (f : String) (h : l.Nodup) :
    (setAdd l f).Nodup := by
  unfold setAdd
  by_cases hc : l.contains f = true
  · rw [if_pos hc]
    exact h
  · rw [if_neg hc]
    rw [List.nodup_append]
    refine ⟨h, List.nodup_singleton f, ?_⟩
    intro a ha hb
    rw [List.mem_singleton] at hb
    subst hb
    exact hc ((contains_iff_mem_str l a).mpr ha)

theorem wInv_request (valid : Bool) (s : WState) (f : String)
    (hinv : WInv s) : WInv (wRequest valid s f) := by
  unfold wRequest
  by_cases hw : s.isWriting = true
  · rw [if_pos hw]
    exact ⟨hinv.1, hinv.2.1, setAdd_nodup s.pending f hinv.2.2⟩
  · rw [if_neg hw]
    by_cases hv : valid = true
    · rw [if_pos hv]
      have hif : s.inFlight = [] := by
        by_contra hne
        exact hw (hinv.2.1.mpr hne)
      refine ⟨?_, ?_, hinv.2.2⟩
      · show (s.inFlight ++ [f]).length ≤ 1
        rw [hif]
        simp
      · show true = true ↔ s.inFlight ++ [f] ≠ []
        rw [hif]
        simp
    · rw [if_neg hv]
      exact hinv

theorem wInv_complete (s : WState) (hinv : WInv s) : WInv (wComplete s) := by
  unfold wComplete
  cases hp : s.pending with
  | nil => exact ⟨by simp, by simp, by simp⟩
  | cons p rest =>
      refine ⟨by simp, by simp, ?_⟩
      have := hinv.2.2
      rw [hp] at this
      exact this.of_cons

theorem wInv_step {s t : WState} (hst : WStep s t) (hinv : WInv s) :
    WInv t := by
  cases hst with
  | request valid f s => exact wInv_request valid s f hinv
  | complete s h => exact wInv_complete s hinv
  | runTask valid f s h =>
      exact wInv_request valid { s with tasks := s.tasks.erase f } f
        ⟨hinv.1, hinv.2.1, hinv.2.2⟩

theorem wInv_reachable (s : WState) (hs : WReachable s) : WInv s := by
  induction hs with
  | init => exact ⟨by simp [wInit], by simp [wInit], by simp [wInit]⟩
  | step _ hst ih => exact wInv_step hst ih

/-- C6: in every reachable scheduler state at most one write is in
flight and the flag tracks it; a request made while a write is in flight
is only recorded as pending (the in-flight set is untouched), and if its
target is already pending the whole call is a no-op (coalescing); and
completion clears the in-flight write and issues exactly the first
pending target, if any. -/
theorem writeToFile_serialized (s : WState) (hs : WReachable s) :
    WInv s
    ∧ (∀ valid f, s.isWriting = true →
        (wRequest valid s f).inFlight = s.inFlight
        ∧ (wRequest valid s f).pending = setAdd s.pending f)
    ∧ (∀ valid f, s.isWriting = true → f ∈ s.pending →
        wRequest valid s f = s)
    ∧ (s.pending = [] → (wComplete s).tasks = s.tasks)
    ∧ (∀ p rest, s.pending = p :: rest →
        (wComplete s).pending = rest ∧ (wComplete s).tasks = s.tasks ++ [p])
    ∧ (wComplete s).inFlight = [] ∧ (wComplete s).isWriting = false := by
  refine ⟨wInv_reachable s hs, ?_, ?_, ?_, ?_, ?_, ?_⟩
  · intro valid f hw
    unfold wRequest
    rw [if_pos hw]
    exact ⟨rfl, rfl⟩
  · intro valid f hw hmem
    unfold wRequest
    rw [if_pos hw]
    have : setAdd s.pending f = s.pending := by
      unfold setAdd
      rw [if_pos ((contains_iff_mem_str s.pending f).mpr hmem)]
    rw [this]
  · intro hp
    unfold wComplete
    rw [hp]
  · intro p rest hp
    unfold wComplete
    rw [hp]
    exact ⟨rfl, rfl⟩
  · unfold wComplete
    cases s.pending <;> rfl
  · unfold wComplete
    cases s.pending <;> rfl

def c6s2 : WState := wRequest true (wRequest true wInit "a") "b"

theorem c6s2_reachable : WReachable c6s2 :=
  WReachable.step
    (WReachable.step WReachable.init (WStep.request true "a" wInit))
    (WStep.request true "b" (wRequest true wInit "a"))

/-- Witness for C6 at a concrete interleaving: after a write to "a" is
issued and a request for "b" arrives mid-flight, the state satisfies the
invariant, a repeated request for "b" is a no-op, and completion pops
exactly "b" into the scheduled tasks. -/
theorem writeToFile_serialized_check :
    WInv c6s2
    ∧ wRequest true c6s2 "b" = c6s2
    ∧ (wComplete c6s2).pending = [] ∧ (wComplete c6s2).tasks = ["b"] :=
  ⟨(writeToFile_serialized c6s2 c6s2_reachable).1,
   (writeToFile_serialized c6s2 c6s2_reachable).2.2.1 true "b"
     (by decide) (by decide),
   ((writeToFile_serialized c6s2 c6s2_reachable).2.2.2.2.1 "b" []
     (by decide)).1,
   ((writeToFile_serialized c6s2 c6s2_reachable).2.2.2.2.1 "b" []
     (by decide)).2⟩

/-! ### Reading the store file (claim C8)

`readFromFile` (lines 349-405) runs entirely inside
`acquireWriteLock('file')` — a spin loop (lines 740-745) on the single
constant key `'file'` that is *not* reentrant.  The model keeps an
explicit `locked` flag for that one lock and a fuel bound; `none` means
the call has not returned within any bound — in the real code the inner
`acquireWriteLock` polls a lock that only the caller itself would
release, i.e. the call never returns. -/

inductive Json where
  | jnull
  | jbool (b : Bool)
  | jnum (n : Int)
  | jstr (s : String)
  | jarr (xs : List Json)
  | jobj (fields : List (String × Json))

/-- JS truthiness of a parsed JSON value (`data && ...`). -/
def jTruthy : Json → Bool
  | Json.jnull => false
  | Json.jbool b => b
  | Json.jnum n => !(n == 0)
  | Json.jstr s => !(s == "")
  | Json.jarr _ => true
  | Json.jobj _ => true

/-- `typeof x === 'object'` for a present value (true for `null`!). -/
def jTypeofObject : Json → Bool
  | Json.jnull => true
  | Json.jarr _ => true
  | Json.jobj _ => true
  | _ => false

/-- Property read `data.k`: `none` is JS `undefined`. -/
def jField : Json → String → Option Json
  | Json.jobj fields, k => mget fields k
  | _, _ => none

def jIsArr : Option Json → Bool
  | some (Json.jarr _) => true
  | _ => false

def jTypeofObjectOpt : Option Json → Bool
  | some j => jTypeofObject j
  | none => false

/-- `validateStoreData(data)` (lines 751-757). -/
def validateStoreData (d : Json) : Bool :=
  jTruthy d && jTypeofObject d
    && (jIsArr (jField d "chats") || jTypeofObjectOpt (jField d "chats"))
    && jTypeofObjectOpt (jField d "messages")
    && jTypeofObjectOpt (jField d "contacts")

inductive ReadResult where
  | noFile
  | noData
  | errored
  | loaded (d : Json)

/-- The whitespace class of JS `String.prototype.trim`. -/
def jsWhitespace (c : Char) : Bool :=
  c = ' ' || c = '\t' || c = '\n' || c = '\r' || c = '\x0b' || c = '\x0c'
    || c = ' ' || c = '﻿'

/-- `!raw.trim()`: the content is blank (whitespace only or empty). -/
def jsBlank (raw : String) : Bool :=
  raw.data.all jsWhitespace

/-- `readFromFile(file)` (lines 349-405): under the `'file'` spin lock,
stat the file (absent ⇒ return), fall back to `` `${file}.backup` `` when
the file is under 10 bytes and the backup is over 10 bytes — by *calling
readFromFile again while still holding the lock* — then read, reject
blank content, parse, validate, and load.  `locked` is the state of the
`'file'` lock when the call starts; the recursive call passes
`locked := true` because the outer call has not released it.  `none`
means the call never returns (the spin loop at lines 741-743 polls a
lock nobody will release). -/
def readFromFile (parse : String → Option Json) (fs : FS) :
    String → Bool → Nat → Option ReadResult
  | _, _, 0 => none
  | file, locked, fuel + 1 =>
      if locked then none
      else
        match mget fs file with
        | none => some ReadResult.noFile
        | some raw =>
            if raw.length < 10 then
              match mget fs (file ++ ".backup") with
              | some braw =>
                  if braw.length > 10 then
                    readFromFile parse fs (file ++ ".backup") true fuel
                  else some ReadResult.noData
              | none => some ReadResult.noData
            else if jsBlank raw then some ReadResult.noData
            else
              match parse raw with
              | none => some ReadResult.errored
              | some d =>
                  if validateStoreData d then some (ReadResult.loaded d)
                  else some ReadResult.errored

theorem readFromFile_loaded_valid (parse : String → Option Json) (fs : FS) :
    ∀ (fuel : Nat) (file : String) (locked : Bool) (d : Json),
      readFromFile parse fs file locked fuel = some (ReadResult.loaded d) →
      validateStoreData d = true := by
  intro fuel
  induction fuel with
  | zero =>
      intro file locked d h
      exact absurd h (by simp [readFromFile])
  | succ n ih =>
      intro file locked d h
      unfold readFromFile at h
      split at h
      · exact absurd h (by simp)
      · split at h
        · exact absurd h (by simp)
        · split at h
          · split at h
            · split at h
              · exact ih _ _ _ h
              · exact absurd h (by simp)
            · exact absurd h (by simp)
          · split at h
            · exact absurd h (by simp)
            · split at h
              · exact absurd h (by simp)
              · split at h
                · rename_i hv
                  injection h with h1
                  injection h1 with h2
                  rw [← h2]
                  exact hv
                · exact absurd h (by simp)

def c8fs : FS :=
  [("store.json", "12345"), ("store.json.backup", "0123456789012345")]

def c8fs2 : FS := [("store.json", "12345")]

def c8doc : Json :=
  Json.jobj [("chats", Json.jarr []), ("messages", Json.jobj []),
    ("contacts", Json.jobj [])]

def c8goodRaw : String := "0123456789good"

def c8badRaw : String := "0123456789bad!"

def c8parse (raw : String) : Option Json :=
  if raw = c8goodRaw then some c8doc
  else if raw = c8badRaw then some (Json.jarr [])
  else none

def c8fsGood : FS := [("store.json", c8goodRaw)]

def c8fsBad : FS := [("store.json", c8badRaw)]

/-- C8 (code bug): with a 5-byte `store.json` and a valid 16-byte
`store.json.backup`, `readFromFile` never returns for any bound — the
backup-fallback recursion at line 369 re-acquires the non-reentrant
`'file'` spin lock the outer call still holds, so the inner
`acquireWriteLock` polls forever instead of loading the backup the claim
promises.  The remaining paths behave as claimed: an absent file returns
quietly with no data, a small file without a valid backup likewise, a
document that fails `validateStoreData` is reported as an error and
nothing is ever loaded unvalidated, and a healthy file loads its parsed
document. -/
theorem readFromFile_small_no_backup_load :
    (∀ (parse : String → Option Json) (fuel : Nat),
        readFromFile parse c8fs "store.json" false fuel = none)
    ∧ (∀ (parse : String → Option Json) (fuel : Nat),
        readFromFile parse [] "store.json" false (fuel + 1)
          = some ReadResult.noFile)
    ∧ readFromFile c8parse c8fs2 "store.json" false 5 = some ReadResult.noData
    ∧ readFromFile c8parse c8fsBad "store.json" false 5
        = some ReadResult.errored
    ∧ readFromFile c8parse c8fsGood "store.json" false 5
        = some (ReadResult.loaded c8doc)
    ∧ (∀ (fuel : Nat) (file : String) (locked : Bool) (d : Json),
        readFromFile c8parse c8fsGood file locked fuel
          = some (ReadResult.loaded d) → validateStoreData d = true) := by
  refine ⟨?_, ?_, rfl, rfl, rfl, readFromFile_loaded_valid c8parse c8fsGood⟩
  · intro parse fuel
    cases fuel with
    | zero => rfl
    | succ n =>
        have hstep : readFromFile parse c8fs "store.json" false (n + 1)
            = readFromFile parse c8fs ("store.json" ++ ".backup") true n := rfl
        rw [hstep]
        cases n with
        | zero => rfl
        | succ m => rfl
  · intro parse fuel
    rfl

/-- Witness for the C8 theorem: the healthy-file load at fuel 5 produces
the parsed document and that document indeed passes validation. -/
theorem readFromFile_small_no_backup_load_check :
    validateStoreData c8doc = true :=
  readFromFile_small_no_backup_load.2.2.2.2.2 5 "store.json" false c8doc rfl

end MemoryStore
